import Mathlib

/-!
Verification development for the synchronization core (`SyncTree`) of a
realtime hierarchical-database client.  The definitions below are a shallow
embedding of `src/database/js-client/core/SyncTree.js`; the collaborating
components (`Path`, `ImmutableTree`, `Node`, `SyncPoint`, `WriteTree`,
`Operation`) are not part of the sources and are modelled from the
specification, as marked in their doc comments.  Strings are modelled as
lists of characters.
-/

abbrev Str : Type := List Char

/-- Modelled from the spec: a `Path` is an ordered sequence of string child
keys; the empty path is the root. -/
abbrev FPath : Type := List Str

def slashChar : Char := '/'

def dollarChar : Char := '$'

/-- Decides whether `p` is an ancestor-or-self of `q` (list prefix test). -/
def pathLe : FPath → FPath → Bool
  | [], _ => true
  | _ :: _, [] => false
  | a :: as, b :: bs => a == b && pathLe as bs

/-- Strict-descendant relation: `q` lies strictly below `p`. -/
def strictAncestor (p q : FPath) : Prop := pathLe p q = true ∧ p ≠ q

/-- Modelled from the spec: `FPath.relativePath(outer, inner)` strips the
ancestor `outer` from `inner`; the source throws when `outer` is not an
ancestor, modelled as `none`. -/
def relativePath : FPath → FPath → Option FPath
  | [], q => some q
  | _ :: _, [] => none
  | a :: as, b :: bs => if a = b then relativePath as bs else none

/-- Modelled from the spec: the `Path` constructor splits a string on `/`,
skipping empty pieces.  `cur` accumulates the current key in reverse. -/
def parsePathAux : Str → Str → FPath
  | [], cur => if cur = [] then [] else [cur.reverse]
  | c :: rest, cur =>
    if c = slashChar then
      (if cur = [] then parsePathAux rest [] else cur.reverse :: parsePathAux rest [])
    else
      parsePathAux rest (c :: cur)

def parsePath (s : Str) : FPath := parsePathAux s []

/-- Modelled from the spec: `FPath.toString` renders `/` + key for each key and
renders the empty path as `/`. -/
def pathToStr (p : FPath) : Str :=
  match p with
  | [] => [slashChar]
  | _ :: _ => (p.map (fun k => slashChar :: k)).flatten

/-- A key usable as a database child name: nonempty, and free of the separator
characters used by paths and query keys. -/
def validKey (k : Str) : Prop := k ≠ [] ∧ slashChar ∉ k ∧ dollarChar ∉ k

def validPath (p : FPath) : Prop := ∀ k ∈ p, validKey k

instance (k : Str) : Decidable (validKey k) :=
  decidable_of_iff (k ≠ [] ∧ slashChar ∉ k ∧ dollarChar ∉ k) Iff.rfl

instance (p : FPath) : Decidable (validPath p) :=
  decidable_of_iff (∀ k ∈ p, validKey k) Iff.rfl

/-- Modelled from the spec: `Node` is an opaque immutable snapshot of a
database subtree with child access and child update. -/
inductive SNode : Type where
  | empty : SNode
  | leaf (v : Nat) : SNode
  | internal (children : List (Str × SNode)) : SNode

/-- Association-list lookup keyed by strings (first binding wins). -/
def lookupKV (l : List (Str × β)) (k : Str) : Option β :=
  match l with
  | [] => none
  | (k', v) :: rest => if k' = k then some v else lookupKV rest k

/-- Association-list update: replaces the binding of `k` if present, otherwise
appends it. -/
def setKV (l : List (Str × β)) (k : Str) (v : β) : List (Str × β) :=
  match l with
  | [] => [(k, v)]
  | (k', v') :: rest => if k' = k then (k', v) :: rest else (k', v') :: setKV rest k v

def SNode.getImmediateChild : SNode → Str → SNode
  | .internal cs, k => (lookupKV cs k).getD .empty
  | _, _ => .empty

def SNode.updateImmediateChild : SNode → Str → SNode → SNode
  | .internal cs, k, n => .internal (setKV cs k n)
  | _, k, n => .internal (setKV [] k n)

/-- Modelled from the spec: `ImmutableTree<T>` is a persistent map from `Path`
to optional `T` with an eager child map, represented as
`{ value: T?, children: ordered-map<string, node> }`. -/
inductive ITree (α : Type) : Type where
  | mk (value : Option α) (children : List (Str × ITree α))

def ITree.value : ITree α → Option α
  | .mk v _ => v

def ITree.children : ITree α → List (Str × ITree α)
  | .mk _ cs => cs

def ITree.empty : ITree α := .mk none []

/-- Modelled from the spec: `ImmutableTree.get(path)`. -/
def ITree.get (t : ITree α) (p : FPath) : Option α :=
  match p with
  | [] => t.value
  | k :: rest =>
    match lookupKV t.children k with
    | some c => c.get rest
    | none => none

/-- Modelled from the spec: `ImmutableTree.set(path, value)`. -/
def ITree.set (t : ITree α) (p : FPath) (v : α) : ITree α :=
  match p with
  | [] => .mk (some v) t.children
  | k :: rest =>
    let child := (lookupKV t.children k).getD ITree.empty
    .mk t.value (setKV t.children k (child.set rest v))

/-- Modelled from the spec: `ImmutableTree.remove(path)` clears the value held
at `path` (pruning of empty branches is not observable through `get`). -/
def ITree.remove (t : ITree α) (p : FPath) : ITree α :=
  match p with
  | [] => .mk none t.children
  | k :: rest =>
    match lookupKV t.children k with
    | some c => .mk t.value (setKV t.children k (c.remove rest))
    | none => t

/-- Modelled from the spec: `ImmutableTree.subtree(path)`. -/
def ITree.subtree (t : ITree α) (p : FPath) : ITree α :=
  match p with
  | [] => t
  | k :: rest =>
    match lookupKV t.children k with
    | some c => c.subtree rest
    | none => ITree.empty

mutual

/-- Modelled from the spec: whether the tree holds no value anywhere. -/
def ITree.isEmptyT : ITree α → Bool
  | .mk v cs => v.isNone && ITree.isEmptyTL cs

def ITree.isEmptyTL : List (Str × ITree α) → Bool
  | [] => true
  | (_, c) :: rest => c.isEmptyT && ITree.isEmptyTL rest

end

mutual

/-- Modelled from the spec: `ImmutableTree.fold` is a bottom-up structural
fold handing each node its path relative to the fold root, its optional value
and the list of child results. -/
def ITree.foldAux (t : ITree α) (pfx : FPath) (f : FPath → Option α → List (Str × β) → β) : β :=
  match t with
  | .mk v cs => f pfx v (ITree.foldChildren cs pfx f)

def ITree.foldChildren (cs : List (Str × ITree α)) (pfx : FPath)
    (f : FPath → Option α → List (Str × β) → β) : List (Str × β) :=
  match cs with
  | [] => []
  | (k, c) :: rest => (k, c.foldAux (pfx ++ [k]) f) :: ITree.foldChildren rest pfx f

end

def ITree.fold (t : ITree α) (f : FPath → Option α → List (Str × β) → β) : β :=
  t.foldAux [] f

/-- Modelled from the spec: `foreachOnPath` visits each strict ancestor of
`p` that holds a value, root first; this specialization returns each visited
value with the remainder of `p` below it. -/
def ITree.ancestorsOnPath (t : ITree α) (p : FPath) : List (FPath × α) :=
  match p with
  | [] => []
  | k :: rest =>
    let here : List (FPath × α) :=
      match t.value with
      | some v => [(k :: rest, v)]
      | none => []
    match lookupKV t.children k with
    | some c => here ++ c.ancestorsOnPath rest
    | none => here

/-- Modelled from the spec: `findOnPath` walks root-to-`p` (including the node
at `p`) and returns the first value satisfying the predicate. -/
def ITree.findOnPath (t : ITree α) (p : FPath) (f : α → Bool) : Option α :=
  match t.value with
  | some v => if f v then some v else
      (match p with
       | [] => none
       | k :: rest =>
         match lookupKV t.children k with
         | some c => c.findOnPath rest f
         | none => none)
  | none =>
    match p with
    | [] => none
    | k :: rest =>
      match lookupKV t.children k with
      | some c => c.findOnPath rest f
      | none => none

/-- Modelled from the spec: a query is a subscription descriptor with a path,
a query identifier string (the sentinel identifier marks the canonical default
query) and whether its parameters load all data at the path. -/
structure Query where
  path : FPath
  queryId : Str
  loadsAll : Bool
deriving DecidableEq

/-- The sentinel identifier of the canonical unfiltered query. -/
def defaultId : Str := ['d', 'e', 'f', 'a', 'u', 'l', 't']

def Query.queryIdentifier (q : Query) : Str := q.queryId

def Query.isDefault (q : Query) : Bool := q.queryId == defaultId

/-- Modelled from the spec: `query.getRef()` yields the default query at the
same path. -/
def Query.getRef (q : Query) : Query := ⟨q.path, defaultId, true⟩

/-- Modelled from the spec: a registration is opaque to the core; registrations
are identified by numbers. -/
abbrev Registration := Nat

/-- Modelled from the spec: a `View` is a per-query materialization; only its
query, its registrations and its (complete) server cache are observable by the
sync tree. -/
structure View where
  query : Query
  regs : List Registration
  serverCache : Option SNode

def View.getQuery (v : View) : Query := v.query

/-- Modelled from the spec: a `SyncPoint` is a collection of views sharing a
path, keyed by query identifier. -/
structure SyncPoint where
  views : List View

def SyncPoint.emptySP : SyncPoint := ⟨[]⟩

def SyncPoint.viewExistsForQuery (sp : SyncPoint) (q : Query) : Bool :=
  sp.views.any (fun v => v.query.queryId == q.queryId)

def SyncPoint.viewForQuery (sp : SyncPoint) (q : Query) : Option View :=
  sp.views.find? (fun v => v.query.queryId == q.queryId)

def SyncPoint.hasCompleteView (sp : SyncPoint) : Bool :=
  sp.views.any (fun v => v.query.loadsAll)

def SyncPoint.getCompleteView (sp : SyncPoint) : Option View :=
  sp.views.find? (fun v => v.query.loadsAll)

/-- Modelled from the spec: the views whose queries do not load all data. -/
def SyncPoint.getQueryViews (sp : SyncPoint) : List View :=
  sp.views.filter (fun v => !v.query.loadsAll)

def SyncPoint.isEmptySP (sp : SyncPoint) : Bool := sp.views.isEmpty

def nodeAtPath (n : SNode) : FPath → SNode
  | [] => n
  | k :: rest => nodeAtPath (n.getImmediateChild k) rest

/-- Modelled from the spec: the first view holding a complete server cache
supplies it, projected to the requested relative path. -/
def SyncPoint.getCompleteServerCache (sp : SyncPoint) (relPath : FPath) : Option SNode :=
  sp.views.foldl (fun acc v => acc <|> v.serverCache.map (fun n => nodeAtPath n relPath)) none

/-- Modelled from the spec: events are opaque to the core; each is modelled as
recording the path of the view that emitted it. -/
structure Event where
  path : FPath
deriving DecidableEq

/-- Modelled from the spec: a `WriteTreeRef` is a path-relative view over the
write log; its contents are consumed only by the external View layer, so only
the relative base path is observable here. -/
structure WriteTreeRef where
  treePath : FPath

def WriteTreeRef.child (r : WriteTreeRef) (k : Str) : WriteTreeRef := ⟨r.treePath ++ [k]⟩

/-- Modelled from the spec: `SyncPoint.addEventRegistration` adds the
registration to the view for the query, creating the view (seeded with the
supplied server cache when complete) if it does not exist, and returns the
initial events. -/
def SyncPoint.addEventRegistration (sp : SyncPoint) (q : Query) (reg : Registration)
    (_writesCache : WriteTreeRef) (serverCache : SNode) (serverCacheComplete : Bool) :
    List Event × SyncPoint :=
  if sp.viewExistsForQuery q then
    ([⟨q.path⟩],
     ⟨sp.views.map (fun v =>
        if v.query.queryId == q.queryId then { v with regs := v.regs ++ [reg] } else v)⟩)
  else
    ([⟨q.path⟩],
     ⟨sp.views ++ [⟨q, [reg], if serverCacheComplete then some serverCache else none⟩]⟩)

/-- Removes a registration (or, when `reg` is `none`, all registrations) from
each view matched by `affect`; returns the surviving views and the queries of
the views that drained. -/
def removeFromViews (views : List View) (affect : View → Bool) (reg : Option Registration) :
    List View × List Query :=
  match views with
  | [] => ([], [])
  | v :: rest =>
    let r := removeFromViews rest affect reg
    if affect v then
      let regs' := match reg with
        | none => []
        | some r0 => v.regs.erase r0
      if regs' = [] then (r.1, v.query :: r.2)
      else ({ v with regs := regs' } :: r.1, r.2)
    else (v :: r.1, r.2)

/-- Modelled from the spec: `SyncPoint.removeEventRegistration`; a removal
against the default query affects every view, any other identifier affects
only the matching view.  Returns the surviving sync point, the queries whose
views were removed entirely, and cancel events when a cancel error is given. -/
def SyncPoint.removeEventRegistration (sp : SyncPoint) (q : Query) (reg : Option Registration)
    (cancelError : Bool) : SyncPoint × List Query × List Event :=
  let affect : View → Bool :=
    if q.queryId == defaultId then fun _ => true
    else fun v => v.query.queryId == q.queryId
  let r := removeFromViews sp.views affect reg
  (⟨r.1⟩, r.2, if cancelError then r.2.map (fun q2 => ⟨q2.path⟩) else [])

/-- Modelled from the spec: a pending user write. -/
structure PendingWrite where
  writeId : Nat
  path : FPath
  snap : Option SNode
  children : List (Str × SNode)
  visible : Bool

/-- Modelled from the spec: the `WriteTree` is the ordered log of pending user
writes. -/
abbrev WriteTree := List PendingWrite

def WriteTree.addOverwrite (wt : WriteTree) (path : FPath) (snap : SNode) (writeId : Nat)
    (visible : Bool) : WriteTree :=
  wt ++ [⟨writeId, path, some snap, [], visible⟩]

def WriteTree.addMerge (wt : WriteTree) (path : FPath) (children : List (Str × SNode))
    (writeId : Nat) : WriteTree :=
  wt ++ [⟨writeId, path, none, children, true⟩]

def WriteTree.getWrite (wt : WriteTree) (writeId : Nat) : Option PendingWrite :=
  wt.find? (fun w => w.writeId == writeId)

/-- Modelled from the spec: a later overwrite at an ancestor-or-self path fully
covers the write. -/
def coveredByLater (wt : WriteTree) (w : PendingWrite) : Bool :=
  wt.any (fun w2 => decide (w.writeId < w2.writeId) && w2.snap.isSome && pathLe w2.path w.path)

/-- Modelled from the spec: `removeWrite` removes the write from the log and
reports whether removing it could alter any visible view: the write was
visible and no later write at an ancestor path fully covers it. -/
def WriteTree.removeWrite (wt : WriteTree) (writeId : Nat) : WriteTree × Bool :=
  match WriteTree.getWrite wt writeId with
  | none => (wt, false)
  | some w =>
    (wt.filter (fun w2 => w2.writeId != writeId), w.visible && !coveredByLater wt w)

def WriteTree.childWrites (_wt : WriteTree) (path : FPath) : WriteTreeRef := ⟨path⟩

/-- Modelled from the spec: an operation source is `User`, `Server`, or
`ServerTaggedQuery(queryId)`. -/
inductive OpSource : Type where
  | user : OpSource
  | server : OpSource
  | serverTaggedQuery (queryId : Str) : OpSource
deriving DecidableEq

/-- The value stored in an acknowledgement's affected tree.  The source
language is untyped; entries written by the code are either the boolean `true`
or a data node. -/
inductive AckValue : Type where
  | b (b : Bool) : AckValue
  | node (n : SNode) : AckValue

/-- Modelled from the spec: `Operation` is a closed sum with variants
Overwrite, Merge, AckUserWrite and ListenComplete. -/
inductive Operation : Type where
  | overwrite (source : OpSource) (path : FPath) (snap : SNode) : Operation
  | merge (source : OpSource) (path : FPath) (children : ITree SNode) : Operation
  | ackUserWrite (path : FPath) (affectedTree : ITree AckValue) (revert : Bool) : Operation
  | listenComplete (source : OpSource) (path : FPath) : Operation

def Operation.path : Operation → FPath
  | .overwrite _ p _ => p
  | .merge _ p _ => p
  | .ackUserWrite p _ _ => p
  | .listenComplete _ p => p

def Operation.source : Operation → OpSource
  | .overwrite s _ _ => s
  | .merge s _ _ => s
  | .ackUserWrite _ _ _ => .user
  | .listenComplete s _ => s

/-- Modelled from the spec: the path-shifted operation relevant to a named
child, or `none` if that child is outside its effect. -/
def Operation.operationForChild : Operation → Str → Option Operation
  | .overwrite src p snap, k =>
    match p with
    | [] => some (.overwrite src [] (snap.getImmediateChild k))
    | k' :: rest => if k' = k then some (.overwrite src rest snap) else none
  | .merge src p ch, k =>
    match p with
    | [] =>
      let childTree := ch.subtree [k]
      if childTree.isEmptyT then none
      else
        match childTree.value with
        | some n => some (.overwrite src [] n)
        | none => some (.merge src [] childTree)
    | k' :: rest => if k' = k then some (.merge src rest ch) else none
  | .ackUserWrite p tree revert, k =>
    match p with
    | [] =>
      match tree.value with
      | some _ => some (.ackUserWrite [] tree revert)
      | none => some (.ackUserWrite [] (tree.subtree [k]) revert)
    | k' :: rest => if k' = k then some (.ackUserWrite rest tree revert) else none
  | .listenComplete src p, k =>
    match p with
    | [] => some (.listenComplete src [])
    | k' :: rest => if k' = k then some (.listenComplete src rest) else none

/-- Modelled from the spec: `ImmutableTree.fromObject` enters each key of the
object into an empty tree. -/
def fromObject (children : List (Str × SNode)) : ITree SNode :=
  children.foldl (fun t kn => t.set (parsePath kn.1) kn.2) ITree.empty

/-- A call made on the injected listen provider, recorded in order. -/
inductive ProviderCall : Type where
  | start (query : Query) (tag : Option Nat) : ProviderCall
  | stop (query : Query) (tag : Option Nat) : ProviderCall
deriving DecidableEq

def ProviderCall.isStart : ProviderCall → Bool
  | .start _ _ => true
  | .stop _ _ => false

/-- The state of `fb.core.SyncTree`: the sync point tree, the pending write
log, the two tag maps and the tag counter (static in the source). -/
structure SyncTree where
  syncPointTree : ITree SyncPoint
  pendingWriteTree : WriteTree
  tagToQueryMap : Nat → Option Str
  queryToTagMap : Str → Option Nat
  nextQueryTag : Nat

/-- The result of one sync tree operation: the returned events, the listen
provider calls it performed, and the successor state. -/
structure Out where
  events : List Event
  calls : List ProviderCall
  st : SyncTree

def initialSyncTree : SyncTree :=
  ⟨ITree.empty, [], fun _ => none, fun _ => none, 1⟩

namespace SyncTree

/-- Embeds `makeQueryKey_`: `query.path.toString() + '$' + query.queryIdentifier()`. -/
def makeQueryKey_ (query : Query) : Str :=
  pathToStr query.path ++ dollarChar :: query.queryIdentifier

/-- The index of the first occurrence of a character, as `indexOf` (which
returns -1 when absent, modelled as `none`). -/
def idxOfChar (c : Char) : Str → Option Nat
  | [] => none
  | a :: rest => if a = c then some 0 else (idxOfChar c rest).map (fun i => i + 1)

/-- Embeds `parseQueryKey_`: split at the first `$`; the source asserts that a
separator exists and is not the last character. -/
def parseQueryKey_ (queryKey : Str) : Option (FPath × Str) :=
  match idxOfChar dollarChar queryKey with
  | none => none
  | some splitIndex =>
    if splitIndex + 1 < queryKey.length then
      some (parsePath (queryKey.take splitIndex), queryKey.drop (splitIndex + 1))
    else none

/-- Embeds `queryKeyForTag_`. -/
def queryKeyForTag_ (s : SyncTree) (tag : Nat) : Option Str := s.tagToQueryMap tag

/-- Embeds `tagForQuery_`. -/
def tagForQuery_ (s : SyncTree) (query : Query) : Option Nat :=
  s.queryToTagMap (makeQueryKey_ query)

/-- Embeds `queryForListening_`: a query that loads all data but is not the
default query is normalized to its plain reference. -/
def queryForListening_ (query : Query) : Query :=
  if query.loadsAll && !query.isDefault then query.getRef else query

/-- Embeds `SyncPoint.applyOperation` as routed by the sync tree (modelled
from the spec: a server-tagged operation goes only to the view with the
matching query identifier, any other operation goes to every view; the events
a view emits are opaque and modelled as one event at the view's path). -/
def SyncPoint.applyOperation (sp : SyncPoint) (operation : Operation)
    (_writesCache : WriteTreeRef) (_serverCache : Option SNode) : List Event :=
  match operation.source with
  | .serverTaggedQuery qid =>
    match sp.views.find? (fun v => v.query.queryId == qid) with
    | some v => [⟨v.query.path⟩]
    | none => []
  | _ => sp.views.map (fun v => (⟨v.query.path⟩ : Event))

/-- The server cache adoption step shared by both dispatch helpers: when no
cached server data is known yet and the sync point has a complete cache at its
root, adopt it. -/
def adoptCache (serverCache : Option SNode) (v : Option SyncPoint) : Option SNode :=
  match serverCache, v with
  | none, some sp => sp.getCompleteServerCache []
  | _, _ => serverCache

mutual

/-- Embeds `applyOperationDescendantsHelper_`: visit all descendants
(depth-first in child order), then apply at the current sync point. -/
def applyOperationDescendantsHelper_ (operation : Operation) (syncPointTree : ITree SyncPoint)
    (serverCache : Option SNode) (writesCache : WriteTreeRef) : List Event :=
  match syncPointTree with
  | .mk v cs =>
    let serverCache' := adoptCache serverCache v
    let childEvents := descendantsChildren_ operation cs serverCache' writesCache
    childEvents ++
      (match v with
       | some sp => SyncPoint.applyOperation sp operation writesCache serverCache'
       | none => [])

/-- The traversal of the child map inside `applyOperationDescendantsHelper_`. -/
def descendantsChildren_ (operation : Operation) (cs : List (Str × ITree SyncPoint))
    (serverCache : Option SNode) (writesCache : WriteTreeRef) : List Event :=
  match cs with
  | [] => []
  | (childName, childTree) :: rest =>
    (match operation.operationForChild childName with
     | some childOperation =>
       applyOperationDescendantsHelper_ childOperation childTree
         (serverCache.map (fun n => n.getImmediateChild childName)) (writesCache.child childName)
     | none => []) ++ descendantsChildren_ operation rest serverCache writesCache

end

/-- Embeds `applyOperationHelper_`: on an empty operation path visit all
descendants; otherwise descend into the addressed child first and apply at the
current sync point afterwards. -/
def applyOperationHelper_ (operation : Operation) (syncPointTree : ITree SyncPoint)
    (serverCache : Option SNode) (writesCache : WriteTreeRef) : List Event :=
  match hp : operation.path with
  | [] => applyOperationDescendantsHelper_ operation syncPointTree serverCache writesCache
  | childName :: _ =>
    let syncPoint := syncPointTree.value
    let serverCache' := adoptCache serverCache syncPoint
    let childEvents :=
      match lookupKV syncPointTree.children childName,
            hc : operation.operationForChild childName with
      | some childTree, some childOperation =>
        applyOperationHelper_ childOperation childTree
          (serverCache'.map (fun n => n.getImmediateChild childName)) (writesCache.child childName)
      | _, _ => []
    childEvents ++
      (match syncPoint with
       | some sp => SyncPoint.applyOperation sp operation writesCache serverCache'
       | none => [])
termination_by operation.path.length
decreasing_by
  cases operation <;>
    simp only [Operation.path] at hp <;>
    subst hp <;>
    simp only [Operation.operationForChild, if_pos rfl, if_true, Option.some.injEq] at hc <;>
    subst hc <;>
    simp [Operation.path]

/-- Embeds `applyOperationToSyncPoints_`. -/
def applyOperationToSyncPoints_ (s : SyncTree) (operation : Operation) : List Event :=
  applyOperationHelper_ operation s.syncPointTree none
    (WriteTree.childWrites s.pendingWriteTree [])

/-- Embeds `applyUserOverwrite` (lines 89-99): record the pending write; when
invisible return no events, otherwise dispatch a user overwrite. -/
def applyUserOverwrite (s : SyncTree) (path : FPath) (newData : SNode) (writeId : Nat)
    (visible : Bool) : Out :=
  let s' := { s with
    pendingWriteTree := WriteTree.addOverwrite s.pendingWriteTree path newData writeId visible }
  if !visible then ⟨[], [], s'⟩
  else ⟨applyOperationToSyncPoints_ s' (.overwrite .user path newData), [], s'⟩

/-- Embeds `applyUserMerge` (lines 109-117). -/
def applyUserMerge (s : SyncTree) (path : FPath) (changedChildren : List (Str × SNode))
    (writeId : Nat) : Out :=
  let s' := { s with
    pendingWriteTree := WriteTree.addMerge s.pendingWriteTree path changedChildren writeId }
  let changeTree := fromObject changedChildren
  ⟨applyOperationToSyncPoints_ s' (.merge .user path changeTree), [], s'⟩

/-- The affected tree synthesized by `ackUserWrite` (lines 134-141): a single
entry `true` at the empty path for an overwrite; for a merge, one entry per
child of the write holding the child's node. -/
def ackAffectedTree (write : PendingWrite) : ITree AckValue :=
  match write.snap with
  | some _ => (ITree.empty : ITree AckValue).set [] (.b true)
  | none =>
    write.children.foldl (fun t kn => t.set (parsePath kn.1) (.node kn.2)) ITree.empty

/-- Embeds `ackUserWrite` (lines 126-144); the write must exist (the write
tree asserts), and when its removal requires no reevaluation no events are
produced. -/
def ackUserWrite (s : SyncTree) (writeId : Nat) (revert : Bool) : Option Out :=
  match WriteTree.getWrite s.pendingWriteTree writeId with
  | none => none
  | some write =>
    let r := WriteTree.removeWrite s.pendingWriteTree writeId
    let s' := { s with pendingWriteTree := r.1 }
    if !r.2 then some ⟨[], [], s'⟩
    else
      some ⟨applyOperationToSyncPoints_ s'
              (.ackUserWrite write.path (ackAffectedTree write) revert), [], s'⟩

/-- Embeds `applyServerOverwrite` (lines 153-156). -/
def applyServerOverwrite (s : SyncTree) (path : FPath) (newData : SNode) : Out :=
  ⟨applyOperationToSyncPoints_ s (.overwrite .server path newData), [], s⟩

/-- Embeds `applyServerMerge` (lines 165-170). -/
def applyServerMerge (s : SyncTree) (path : FPath) (changedChildren : List (Str × SNode)) : Out :=
  ⟨applyOperationToSyncPoints_ s (.merge .server path (fromObject changedChildren)), [], s⟩

/-- Embeds `applyListenComplete` (lines 178-181). -/
def applyListenComplete (s : SyncTree) (path : FPath) : Out :=
  ⟨applyOperationToSyncPoints_ s (.listenComplete .server path), [], s⟩

/-- Embeds `applyTaggedOperation_` (lines 642-647); the sync point for a
tracked tag must exist (assertion). -/
def applyTaggedOperation_ (s : SyncTree) (queryPath : FPath) (operation : Operation) :
    Option (List Event) :=
  match s.syncPointTree.get queryPath with
  | none => none
  | some syncPoint =>
    let writesCache := WriteTree.childWrites s.pendingWriteTree queryPath
    some (SyncPoint.applyOperation syncPoint operation writesCache none)

/-- Embeds `applyTaggedQueryOverwrite` (lines 191-204): resolve the tag; when
unknown, return no events and change nothing. -/
def applyTaggedQueryOverwrite (s : SyncTree) (path : FPath) (snap : SNode) (tag : Nat) :
    Option Out :=
  match queryKeyForTag_ s tag with
  | some queryKey =>
    match parseQueryKey_ queryKey with
    | none => none
    | some r =>
      match relativePath r.1 path with
      | none => none
      | some relPath =>
        (applyTaggedOperation_ s r.1
          (.overwrite (.serverTaggedQuery r.2) relPath snap)).map (⟨·, [], s⟩)
  | none => some ⟨[], [], s⟩

/-- Embeds `applyTaggedQueryMerge` (lines 214-228). -/
def applyTaggedQueryMerge (s : SyncTree) (path : FPath)
    (changedChildren : List (Str × SNode)) (tag : Nat) : Option Out :=
  match queryKeyForTag_ s tag with
  | some queryKey =>
    match parseQueryKey_ queryKey with
    | none => none
    | some r =>
      match relativePath r.1 path with
      | none => none
      | some relPath =>
        (applyTaggedOperation_ s r.1
          (.merge (.serverTaggedQuery r.2) relPath (fromObject changedChildren))).map (⟨·, [], s⟩)
  | none => some ⟨[], [], s⟩

/-- Embeds `applyTaggedListenComplete` (lines 237-250). -/
def applyTaggedListenComplete (s : SyncTree) (path : FPath) (tag : Nat) : Option Out :=
  match queryKeyForTag_ s tag with
  | some queryKey =>
    match parseQueryKey_ queryKey with
    | none => none
    | some r =>
      match relativePath r.1 path with
      | none => none
      | some relPath =>
        (applyTaggedOperation_ s r.1
          (.listenComplete (.serverTaggedQuery r.2) relPath)).map (⟨·, [], s⟩)
  | none => some ⟨[], [], s⟩

/-- Embeds `collectDistinctViewsForSubTree_` (lines 433-450): fold the subtree
collecting the complete view where one exists, else the filtered views plus
all descendant results. -/
def collectDistinctViewsForSubTree_ (subtree : ITree SyncPoint) : List View :=
  subtree.fold (fun _relativePath maybeChildSyncPoint (childMap : List (Str × List View)) =>
    match maybeChildSyncPoint with
    | some sp =>
      if sp.hasCompleteView then sp.getCompleteView.toList
      else sp.getQueryViews ++ (childMap.map (fun kc => kc.2)).flatten
    | none => (childMap.map (fun kc => kc.2)).flatten)

/-- Embeds `removeTags_` (lines 456-467): drop the tag bindings of each
removed query that does not load all data, in order. -/
def removeTags_ (s : SyncTree) (queries : List Query) : SyncTree :=
  match queries with
  | [] => s
  | removedQuery :: rest =>
    let st :=
      if removedQuery.loadsAll then s
      else
        let removedQueryKey := makeQueryKey_ removedQuery
        match s.queryToTagMap removedQueryKey with
        | some removedQueryTag =>
          { s with
            queryToTagMap := fun k => if k = removedQueryKey then none else s.queryToTagMap k,
            tagToQueryMap := fun t => if t = removedQueryTag then none else s.tagToQueryMap t }
        | none =>
          { s with
            queryToTagMap := fun k => if k = removedQueryKey then none else s.queryToTagMap k }
    removeTags_ st rest

/-- The fold body of the default-listener shadowing walk in `setupListener_`
(lines 511-529): below the root, a complete view contributes its own query and
cuts the walk; otherwise the filtered views' queries and all child results are
collected. -/
def shadowFoldFn (relativePath : FPath) (maybeChildSyncPoint : Option SyncPoint)
    (childMap : List (Str × List Query)) : List Query :=
  match maybeChildSyncPoint with
  | some sp =>
    if !relativePath.isEmpty && sp.hasCompleteView then
      (sp.getCompleteView.map View.getQuery).toList
    else
      sp.getQueryViews.map View.getQuery ++ (childMap.map (fun kc => kc.2)).flatten
  | none => (childMap.map (fun kc => kc.2)).flatten

/-- Embeds `setupListener_` (lines 496-536): start a listen for the query; a
tagged listener asserts that its own sync point has no complete view, an
untagged (default) listener folds the subtree for shadowed queries and stops
each of them.  The provider's synchronous bootstrap events are modelled as
empty and its callbacks are opaque. -/
def setupListener_ (s : SyncTree) (query : Query) (_view : View) :
    Option (List Event × List ProviderCall) :=
  let path := query.path
  let tag := tagForQuery_ s query
  let events : List Event := []
  let startCall := ProviderCall.start (queryForListening_ query) tag
  let subtree := s.syncPointTree.subtree path
  match tag with
  | some _ =>
    match subtree.value with
    | some sp => if sp.hasCompleteView then none else some (events, [startCall])
    | none => none
  | none =>
    let queriesToStop := subtree.fold shadowFoldFn
    some (events,
      startCall :: queriesToStop.map (fun queryToStop =>
        ProviderCall.stop (queryForListening_ queryToStop) (tagForQuery_ s queryToStop)))

/-- The server-cache assembly step of `addEventRegistration` (lines 280-293):
when no ancestor supplied a complete cache, build an incomplete one from the
immediate children's complete caches. -/
def assembleServerCache (tree1 : ITree SyncPoint) (path : FPath)
    (serverCacheFound : Option SNode) : Bool × SNode :=
  match serverCacheFound with
  | some n => (true, n)
  | none =>
    (false,
     (tree1.subtree path).children.foldl (fun (acc : SNode) (kc : Str × ITree SyncPoint) =>
        match kc.2.value with
        | some childSyncPoint =>
          match childSyncPoint.getCompleteServerCache [] with
          | some completeCache => SNode.updateImmediateChild acc kc.1 completeCache
          | none => acc
        | none => acc) SNode.empty)

/-- The part of `addEventRegistration` following the sync point lookup
(lines 280-312), parameterized by the looked-up sync point, the possibly
extended tree, and the ancestor walk results. -/
def addEventRegistrationAfterLookup (s : SyncTree) (query : Query)
    (eventRegistration : Registration) (syncPoint : SyncPoint) (tree1 : ITree SyncPoint)
    (foundAncestorDefaultView : Bool) (serverCacheFound : Option SNode) : Option Out :=
  let path := query.path
  let scStep : Bool × SNode := assembleServerCache tree1 path serverCacheFound
  let viewAlreadyExists := syncPoint.viewExistsForQuery query
  let tagStep : Option SyncTree :=
    if !viewAlreadyExists && !query.loadsAll then
      let queryKey := makeQueryKey_ query
      if (s.queryToTagMap queryKey).isSome then none
      else
        let tag := s.nextQueryTag
        some { s with
          queryToTagMap := fun k => if k = queryKey then some tag else s.queryToTagMap k,
          tagToQueryMap := fun t => if t = tag then some queryKey else s.tagToQueryMap t,
          nextQueryTag := s.nextQueryTag + 1 }
    else some s
  match tagStep with
  | none => none
  | some s1 =>
    let writesCache := WriteTree.childWrites s1.pendingWriteTree path
    let r := syncPoint.addEventRegistration query eventRegistration writesCache scStep.2 scStep.1
    let s2 := { s1 with syncPointTree := tree1.set path r.2 }
    if !viewAlreadyExists && !foundAncestorDefaultView then
      match r.2.viewForQuery query with
      | none => none
      | some view =>
        match setupListener_ s2 query view with
        | none => none
        | some ec => some ⟨r.1 ++ ec.1, ec.2, s2⟩
    else some ⟨r.1, [], s2⟩

/-- Embeds `addEventRegistration` (lines 259-313): walk the ancestors for a
server cache and a shadowing complete view, create the sync point when
missing, track a tag for a new filtered view (asserting it has no tag yet),
register, and set up a listener when the new view is not shadowed. -/
def addEventRegistration (s : SyncTree) (query : Query) (eventRegistration : Registration) :
    Option Out :=
  let path := query.path
  let anc := s.syncPointTree.ancestorsOnPath path
  let serverCache0 :=
    anc.foldl (fun acc pv => acc <|> SyncPoint.getCompleteServerCache pv.2 pv.1) none
  let found0 := anc.any (fun pv => pv.2.hasCompleteView)
  match s.syncPointTree.get path with
  | none =>
    addEventRegistrationAfterLookup s query eventRegistration SyncPoint.emptySP
      (s.syncPointTree.set path SyncPoint.emptySP) found0 serverCache0
  | some sp =>
    addEventRegistrationAfterLookup s query eventRegistration sp s.syncPointTree
      (found0 || sp.hasCompleteView) (serverCache0 <|> sp.getCompleteServerCache [])

/-- Embeds `removeEventRegistration` (lines 326-401): remove matching
registrations at the sync point, drop the sync point when drained, restart
uncovered descendant listens when a default was removed, stop the removed
listens when not covered, and clear the removed tags. -/
def removeEventRegistration (s : SyncTree) (query : Query)
    (eventRegistration : Option Registration) (cancelError : Bool) : Out :=
  let path := query.path
  match s.syncPointTree.get path with
  | some maybeSyncPoint =>
    if query.queryIdentifier == defaultId || maybeSyncPoint.viewExistsForQuery query then
      let rae := maybeSyncPoint.removeEventRegistration query eventRegistration cancelError
      let removed := rae.2.1
      let cancelEvents := rae.2.2
      let tree' := if rae.1.isEmptySP then s.syncPointTree.remove path
                   else s.syncPointTree.set path rae.1
      let s1 := { s with syncPointTree := tree' }
      let removingDefault := removed.any (fun q2 => q2.loadsAll)
      let covered := (tree'.findOnPath path (fun sp => sp.hasCompleteView)).isSome
      let startCalls :=
        if removingDefault && !covered then
          let subtree := tree'.subtree path
          if !subtree.isEmptyT then
            (collectDistinctViewsForSubTree_ subtree).map (fun view =>
              ProviderCall.start (queryForListening_ view.getQuery) (tagForQuery_ s1 view.getQuery))
          else []
        else []
      let stopCalls :=
        if !covered && !removed.isEmpty && !cancelError then
          if removingDefault then [ProviderCall.stop (queryForListening_ query) none]
          else
            removed.map (fun queryToRemove =>
              ProviderCall.stop (queryForListening_ queryToRemove)
                (s1.queryToTagMap (makeQueryKey_ queryToRemove)))
        else []
      let s2 := removeTags_ s1 removed
      ⟨cancelEvents, startCalls ++ stopCalls, s2⟩
    else ⟨[], [], s⟩
  | none => ⟨[], [], s⟩

end SyncTree

/-- One top-level call on the sync tree. -/
inductive Cmd : Type where
  | add (query : Query) (reg : Registration) : Cmd
  | remove (query : Query) (reg : Option Registration) (cancelError : Bool) : Cmd
  | userOverwrite (path : FPath) (newData : SNode) (writeId : Nat) (visible : Bool) : Cmd
  | userMerge (path : FPath) (changedChildren : List (Str × SNode)) (writeId : Nat) : Cmd
  | ack (writeId : Nat) (revert : Bool) : Cmd
  | serverOverwrite (path : FPath) (newData : SNode) : Cmd
  | serverMerge (path : FPath) (changedChildren : List (Str × SNode)) : Cmd
  | listenComplete (path : FPath) : Cmd
  | taggedOverwrite (path : FPath) (snap : SNode) (tag : Nat) : Cmd
  | taggedMerge (path : FPath) (changedChildren : List (Str × SNode)) (tag : Nat) : Cmd
  | taggedListenComplete (path : FPath) (tag : Nat) : Cmd

/-- Runs one call; `none` when the call hits an assertion. -/
def runCmd (s : SyncTree) : Cmd → Option SyncTree
  | .add q r => (SyncTree.addEventRegistration s q r).map Out.st
  | .remove q r e => some (SyncTree.removeEventRegistration s q r e).st
  | .userOverwrite p n w v => some (SyncTree.applyUserOverwrite s p n w v).st
  | .userMerge p c w => some (SyncTree.applyUserMerge s p c w).st
  | .ack w r => (SyncTree.ackUserWrite s w r).map Out.st
  | .serverOverwrite p n => some (SyncTree.applyServerOverwrite s p n).st
  | .serverMerge p c => some (SyncTree.applyServerMerge s p c).st
  | .listenComplete p => some (SyncTree.applyListenComplete s p).st
  | .taggedOverwrite p n t => (SyncTree.applyTaggedQueryOverwrite s p n t).map Out.st
  | .taggedMerge p c t => (SyncTree.applyTaggedQueryMerge s p c t).map Out.st
  | .taggedListenComplete p t => (SyncTree.applyTaggedListenComplete s p t).map Out.st

/-- The states of the sync tree reachable from the initial state by successful
top-level calls. -/
inductive Reachable : SyncTree → Prop where
  | init : Reachable initialSyncTree
  | step {s s' : SyncTree} {c : Cmd} : Reachable s → runCmd s c = some s' → Reachable s'

/-- The event ordering guaranteed by the dispatch helpers: no event precedes
an event of a sync point strictly below the path of the sync point that
produced it. -/
def eventOrdered (evs : List Event) : Prop :=
  List.Pairwise (fun a b => ¬ strictAncestor a.path b.path) evs

/-- Well-formedness of a sync point tree hanging at absolute path `pfx`: every
view's query records the absolute path of its sync point, and child keys are
unique. -/
inductive WFTree : FPath → ITree SyncPoint → Prop where
  | mk {pfx : FPath} {v : Option SyncPoint} {cs : List (Str × ITree SyncPoint)} :
      (∀ sp, v = some sp → ∀ vw ∈ sp.views, vw.query.path = pfx) →
      (∀ k c, (k, c) ∈ cs → WFTree (pfx ++ [k]) c) →
      (cs.map Prod.fst).Nodup →
      WFTree pfx (.mk v cs)

/-- The tag-map portion of the sync tree invariant: the two maps are mutual
inverses, tags are below the counter, and every tracked key is the key of a
query that does not load all data. -/
def MapsInv (s : SyncTree) : Prop :=
  (∀ t k, s.tagToQueryMap t = some k → s.queryToTagMap k = some t) ∧
  (∀ k t, s.queryToTagMap k = some t → s.tagToQueryMap t = some k) ∧
  (∀ k t, s.queryToTagMap k = some t → t < s.nextQueryTag) ∧
  (∀ t k, s.tagToQueryMap t = some k →
    ∃ q : Query, SyncTree.makeQueryKey_ q = k ∧ q.loadsAll = false)

/-- The sync point tree portion of the invariant: every stored sync point has
at least one view, and the tree is well formed. -/
def TreeInv (s : SyncTree) : Prop :=
  (∀ p sp, s.syncPointTree.get p = some sp → sp.views ≠ []) ∧
  WFTree [] s.syncPointTree

def SyncInv (s : SyncTree) : Prop := MapsInv s ∧ TreeInv s

def toStrAux (p : FPath) : Str := (p.map (fun k => slashChar :: k)).flatten

def wMergeSample : PendingWrite := ⟨1, [['a']], none, [(['x'], SNode.leaf 7)], true⟩

def sMergeSample : SyncTree := { initialSyncTree with pendingWriteTree := [wMergeSample] }

def qdA : Query := ⟨[['a']], defaultId, true⟩

def qfA : Query := ⟨[['a']], ['q', '1'], false⟩

def sampleS1 : SyncTree :=
  ((SyncTree.addEventRegistration initialSyncTree qdA 0).map Out.st).getD initialSyncTree

def sampleS2 : SyncTree :=
  ((SyncTree.addEventRegistration sampleS1 qfA 1).map Out.st).getD initialSyncTree

def sampleT1 : SyncTree :=
  ((SyncTree.addEventRegistration initialSyncTree qfA 1).map Out.st).getD initialSyncTree

def spS1 : SyncPoint := (sampleS1.syncPointTree.get [['a']]).getD SyncPoint.emptySP

def spT1 : SyncPoint := (sampleT1.syncPointTree.get [['a']]).getD SyncPoint.emptySP

@[simp] theorem ITree.value_mk (v : Option α) (cs : List (Str × ITree α)) :
    (ITree.mk v cs).value = v := rfl

@[simp] theorem ITree.children_mk (v : Option α) (cs : List (Str × ITree α)) :
    (ITree.mk v cs).children = cs := rfl

theorem lookupKV_setKV_self (l : List (Str × β)) (k : Str) (v : β) :
    lookupKV (setKV l k v) k = some v := by
  induction l with
  | nil => simp [setKV, lookupKV]
  | cons h t ih =>
    obtain ⟨k', v'⟩ := h
    by_cases hk : k' = k <;> simp [setKV, lookupKV, hk, ih]

theorem lookupKV_setKV_ne (l : List (Str × β)) (k k' : Str) (v : β) (h : k ≠ k') :
    lookupKV (setKV l k v) k' = lookupKV l k' := by
  induction l with
  | nil => simp [setKV, lookupKV, h]
  | cons hd t ih =>
    obtain ⟨k0, v0⟩ := hd
    by_cases hk : k0 = k
    · subst hk
      simp [setKV, lookupKV, h]
    · simp [setKV, lookupKV, hk, ih]

theorem lookupKV_mem {l : List (Str × β)} {k : Str} {v : β} (h : lookupKV l k = some v) :
    (k, v) ∈ l := by
  induction l with
  | nil => simp [lookupKV] at h
  | cons hd t ih =>
    obtain ⟨k0, v0⟩ := hd
    by_cases hk : k0 = k
    · subst hk
      simp [lookupKV] at h
      simp [h]
    · simp [lookupKV, hk] at h
      exact List.mem_cons_of_mem _ (ih h)

theorem mem_setKV {l : List (Str × β)} {k : Str} {v : β} {a : Str × β}
    (h : a ∈ setKV l k v) : a ∈ l ∨ a = (k, v) := by
  induction l with
  | nil => simp [setKV] at h; simp [h]
  | cons hd t ih =>
    obtain ⟨k0, v0⟩ := hd
    by_cases hk : k0 = k
    · subst hk
      simp [setKV] at h
      rcases h with h | h
      · right; simp [h]
      · left; exact List.mem_cons_of_mem _ h
    · simp [setKV, hk] at h
      rcases h with h | h
      · left; simp [h]
      · rcases ih h with h' | h'
        · left; exact List.mem_cons_of_mem _ h'
        · right; exact h'

theorem keys_setKV (l : List (Str × β)) (k : Str) (v : β) :
    (setKV l k v).map Prod.fst = l.map Prod.fst ∨
    (setKV l k v).map Prod.fst = l.map Prod.fst ++ [k] := by
  induction l with
  | nil => right; simp [setKV]
  | cons hd t ih =>
    obtain ⟨k0, v0⟩ := hd
    by_cases hk : k0 = k
    · left; simp [setKV, hk]
    · rcases ih with h | h
      · left; simp [setKV, hk, h]
      · right; simp [setKV, hk, h]

@[simp] theorem ITree.get_empty (p : FPath) : (ITree.empty : ITree α).get p = none := by
  cases p <;> simp [ITree.get, ITree.empty, lookupKV]

theorem ITree.get_set_self (t : ITree α) (p : FPath) (v : α) : (t.set p v).get p = some v := by
  induction p generalizing t with
  | nil => simp [ITree.set, ITree.get]
  | cons k rest ih => simp [ITree.set, ITree.get, lookupKV_setKV_self, ih]

theorem ITree.get_set_ne (t : ITree α) (p q : FPath) (v : α) (h : p ≠ q) :
    (t.set p v).get q = t.get q := by
  induction p generalizing t q with
  | nil =>
    cases q with
    | nil => exact absurd rfl h
    | cons k' r' => simp [ITree.set, ITree.get]
  | cons k rest ih =>
    cases q with
    | nil => simp [ITree.set, ITree.get]
    | cons k' r' =>
      by_cases hk : k = k'
      · subst hk
        have hr : rest ≠ r' := by
          intro he; exact h (by rw [he])
        cases hl : lookupKV t.children k with
        | some c =>
          simp [ITree.set, ITree.get, lookupKV_setKV_self, hl, ih _ _ hr]
        | none =>
          simp [ITree.set, ITree.get, lookupKV_setKV_self, hl, ih _ _ hr]
      · simp [ITree.set, ITree.get, lookupKV_setKV_ne _ _ _ _ hk]

theorem ITree.get_remove_self (t : ITree α) (p : FPath) : (t.remove p).get p = none := by
  induction p generalizing t with
  | nil => simp [ITree.remove, ITree.get]
  | cons k rest ih =>
    cases hl : lookupKV t.children k with
    | some c => simp [ITree.remove, ITree.get, hl, lookupKV_setKV_self, ih]
    | none => simp [ITree.remove, ITree.get, hl]

theorem ITree.get_remove_ne (t : ITree α) (p q : FPath) (h : p ≠ q) :
    (t.remove p).get q = t.get q := by
  induction p generalizing t q with
  | nil =>
    cases q with
    | nil => exact absurd rfl h
    | cons k' r' => simp [ITree.remove, ITree.get]
  | cons k rest ih =>
    cases hl : lookupKV t.children k with
    | some c =>
      cases q with
      | nil => simp [ITree.remove, ITree.get, hl]
      | cons k' r' =>
        by_cases hk : k = k'
        · subst hk
          have hr : rest ≠ r' := by
            intro he; exact h (by rw [he])
          simp [ITree.remove, ITree.get, hl, lookupKV_setKV_self, ih _ _ hr]
        · simp [ITree.remove, ITree.get, hl, lookupKV_setKV_ne _ _ _ _ hk]
    | none => simp [ITree.remove, hl]

theorem ITree.subtree_empty (p : FPath) : (ITree.empty : ITree α).subtree p = ITree.empty := by
  cases p <;> simp [ITree.subtree, ITree.empty, lookupKV]

theorem ITree.subtree_set_self (t : ITree α) (p : FPath) (v : α) :
    (t.set p v).subtree p = .mk (some v) ((t.subtree p).children) := by
  induction p generalizing t with
  | nil => cases t; simp [ITree.set, ITree.subtree]
  | cons k rest ih =>
    cases hl : lookupKV t.children k with
    | some c => simp [ITree.set, ITree.subtree, hl, lookupKV_setKV_self, ih]
    | none =>
      simp only [ITree.set, ITree.subtree, ITree.children_mk, hl, Option.getD_none,
        lookupKV_setKV_self, ih]
      cases rest <;> simp [ITree.subtree, ITree.empty, lookupKV]

theorem pathLe_iff (p q : FPath) : pathLe p q = true ↔ ∃ r, q = p ++ r := by
  induction p generalizing q with
  | nil => simp [pathLe]
  | cons a as ih =>
    cases q with
    | nil => simp [pathLe]
    | cons b bs =>
      constructor
      · intro h
        simp [pathLe] at h
        obtain ⟨hab, h2⟩ := h
        subst hab
        obtain ⟨r, hr⟩ := (ih bs).mp h2
        exact ⟨r, by simp [hr]⟩
      · rintro ⟨r, hr⟩
        simp at hr
        obtain ⟨hab, hbs⟩ := hr
        subst hab
        simp [pathLe]
        exact (ih bs).mpr ⟨r, hbs⟩

theorem pathLe_refl (p : FPath) : pathLe p p = true :=
  (pathLe_iff p p).mpr ⟨[], by simp⟩

theorem pathLe_append (p r : FPath) : pathLe p (p ++ r) = true :=
  (pathLe_iff p (p ++ r)).mpr ⟨r, rfl⟩

theorem pathLe_trans {p q r : FPath} (h1 : pathLe p q = true) (h2 : pathLe q r = true) :
    pathLe p r = true := by
  obtain ⟨a, ha⟩ := (pathLe_iff p q).mp h1
  obtain ⟨b, hb⟩ := (pathLe_iff q r).mp h2
  exact (pathLe_iff p r).mpr ⟨a ++ b, by simp [hb, ha]⟩

theorem pathLe_length {p q : FPath} (h : pathLe p q = true) : p.length ≤ q.length := by
  obtain ⟨r, hr⟩ := (pathLe_iff p q).mp h
  simp [hr]

theorem strictAncestor_length {p q : FPath} (h : strictAncestor p q) :
    p.length < q.length := by
  obtain ⟨h1, h2⟩ := h
  obtain ⟨r, hr⟩ := (pathLe_iff p q).mp h1
  cases r with
  | nil => exact absurd (by simp [hr]) h2
  | cons x xs => simp [hr]

theorem eq_of_pathLe_pathLe_length {p1 p2 q : FPath} (h1 : pathLe p1 q = true)
    (h2 : pathLe p2 q = true) (hl : p1.length = p2.length) : p1 = p2 := by
  obtain ⟨r1, hr1⟩ := (pathLe_iff p1 q).mp h1
  obtain ⟨r2, hr2⟩ := (pathLe_iff p2 q).mp h2
  exact (List.append_inj (by rw [← hr1, ← hr2]) hl).1

theorem eventOrdered_of_const {l : List Event} {x : FPath} (h : ∀ e ∈ l, e.path = x) :
    eventOrdered l := by
  induction l with
  | nil => exact List.Pairwise.nil
  | cons e t ih =>
    refine List.Pairwise.cons ?_ (ih (fun e' he' => h e' (List.mem_cons_of_mem _ he')))
    intro e' he' hanc
    have h1 : e.path = x := h e (List.mem_cons_self _ _)
    have h2 : e'.path = x := h e' (List.mem_cons_of_mem _ he')
    exact hanc.2 (by rw [h1, h2])

theorem WFTree_empty (pfx : FPath) : WFTree pfx (ITree.empty : ITree SyncPoint) :=
  WFTree.mk (by simp) (by simp) (by simp [ITree.empty])

theorem WFTree.value_views {pfx : FPath} {t : ITree SyncPoint} (h : WFTree pfx t)
    {sp : SyncPoint} (hv : t.value = some sp) {vw : View} (hvw : vw ∈ sp.views) :
    vw.query.path = pfx := by
  cases h with
  | mk h1 h2 h3 => exact h1 sp hv vw hvw

theorem WFTree.child {pfx : FPath} {t : ITree SyncPoint} (h : WFTree pfx t)
    {k : Str} {c : ITree SyncPoint} (hc : (k, c) ∈ t.children) : WFTree (pfx ++ [k]) c := by
  cases h with
  | mk h1 h2 h3 => exact h2 k c hc

theorem WFTree.keysNodup {pfx : FPath} {t : ITree SyncPoint} (h : WFTree pfx t) :
    (t.children.map Prod.fst).Nodup := by
  cases h with
  | mk h1 h2 h3 => exact h3

theorem mem_keys_setKV {l : List (Str × β)} {k a : Str} {v : β}
    (h : a ∈ (setKV l k v).map Prod.fst) : a ∈ l.map Prod.fst ∨ a = k := by
  simp only [List.mem_map] at h
  obtain ⟨x, hx, hxa⟩ := h
  rcases mem_setKV hx with h' | h'
  · left; exact List.mem_map.mpr ⟨x, h', hxa⟩
  · right; rw [← hxa, h']

theorem keys_setKV_nodup {l : List (Str × β)} {k : Str} {v : β}
    (h : (l.map Prod.fst).Nodup) : ((setKV l k v).map Prod.fst).Nodup := by
  induction l with
  | nil => simp [setKV]
  | cons hd t ih =>
    obtain ⟨k0, v0⟩ := hd
    rw [List.map_cons, List.nodup_cons] at h
    by_cases hk : k0 = k
    · subst hk
      have he : setKV ((k0, v0) :: t) k0 v = (k0, v) :: t := by simp [setKV]
      rw [he, List.map_cons, List.nodup_cons]
      exact ⟨h.1, h.2⟩
    · have he : setKV ((k0, v0) :: t) k v = (k0, v0) :: setKV t k v := by simp [setKV, hk]
      rw [he, List.map_cons, List.nodup_cons]
      refine ⟨?_, ih h.2⟩
      intro hmem
      rcases mem_keys_setKV hmem with h' | h'
      · exact h.1 h'
      · exact hk h'

theorem WFTree_set {pfx : FPath} {t : ITree SyncPoint} (h : WFTree pfx t) (p : FPath)
    {sp : SyncPoint} (hsp : ∀ vw ∈ sp.views, vw.query.path = pfx ++ p) :
    WFTree pfx (t.set p sp) := by
  induction p generalizing pfx t with
  | nil =>
    cases t with
    | mk v cs =>
      refine WFTree.mk ?_ (fun k c hc => h.child hc) h.keysNodup
      intro sp' hv vw hvw
      simp [ITree.set] at hv
      subst hv
      simpa using hsp vw hvw
  | cons k rest ih =>
    cases t with
    | mk v cs =>
      refine WFTree.mk (fun sp' hv vw hvw => h.value_views hv hvw) ?_
        (keys_setKV_nodup h.keysNodup)
      intro k2 c2 hc2
      rcases mem_setKV hc2 with h' | h'
      · exact h.child h'
      · have hk2 : k = k2 := by
          have hfst := congrArg Prod.fst h'
          simpa using hfst.symm
        subst hk2
        have hc2' : c2 = ((lookupKV cs k).getD ITree.empty).set rest sp := by
          simpa using congrArg Prod.snd h'
        subst hc2'
        have hwfc : WFTree (pfx ++ [k]) ((lookupKV cs k).getD ITree.empty) := by
          cases hl : lookupKV cs k with
          | some c => simpa [hl] using h.child (lookupKV_mem hl)
          | none => simp [hl]; exact WFTree_empty _
        exact ih hwfc (by intro vw hvw; simpa using hsp vw hvw)

theorem WFTree_remove {pfx : FPath} {t : ITree SyncPoint} (h : WFTree pfx t) (p : FPath) :
    WFTree pfx (t.remove p) := by
  induction p generalizing pfx t with
  | nil =>
    cases t with
    | mk v cs =>
      exact WFTree.mk (by simp [ITree.remove]) (fun k c hc => h.child hc) h.keysNodup
  | cons k rest ih =>
    cases t with
    | mk v cs =>
      cases hl : lookupKV cs k with
      | some c =>
        simp only [ITree.remove, ITree.children_mk, hl]
        refine WFTree.mk (fun sp' hv vw hvw => h.value_views hv hvw) ?_
          (keys_setKV_nodup h.keysNodup)
        intro k2 c2 hc2
        rcases mem_setKV hc2 with h' | h'
        · exact h.child h'
        · have hk2 : k = k2 := by
            have hfst := congrArg Prod.fst h'
            simpa using hfst.symm
          subst hk2
          have hc2' : c2 = c.remove rest := by simpa using congrArg Prod.snd h'
          subst hc2'
          exact ih (h.child (lookupKV_mem hl))
      | none => simpa [ITree.remove, hl] using h

theorem notAnc_of_longer {p q : FPath} (h : q.length ≤ p.length) : ¬ strictAncestor p q := by
  intro hs
  have := strictAncestor_length hs
  omega

theorem notAnc_of_diff_child {pfx : FPath} {k k' : Str} {p1 p2 : FPath} (hk : k ≠ k')
    (h1 : pathLe (pfx ++ [k]) p1 = true) (h2 : pathLe (pfx ++ [k']) p2 = true) :
    ¬ strictAncestor p1 p2 := by
  intro hs
  have h3 := pathLe_trans h1 hs.1
  have h4 := eq_of_pathLe_pathLe_length h3 h2 (by simp)
  have h5 : k = k' := by simpa using h4
  exact hk h5

theorem helper_eq_nil (op : Operation) (t : ITree SyncPoint) (sc : Option SNode)
    (wc : WriteTreeRef) (h : op.path = []) :
    SyncTree.applyOperationHelper_ op t sc wc =
      SyncTree.applyOperationDescendantsHelper_ op t sc wc := by
  rw [SyncTree.applyOperationHelper_.eq_def]
  split
  · rfl
  · rename_i k tail hp
    rw [h] at hp
    cases hp

theorem helper_eq_cons (op : Operation) (t : ITree SyncPoint) (sc : Option SNode)
    (wc : WriteTreeRef) (k : Str) (tail : FPath) (h : op.path = k :: tail) :
    SyncTree.applyOperationHelper_ op t sc wc =
      (match lookupKV t.children k, op.operationForChild k with
       | some childTree, some childOperation =>
         SyncTree.applyOperationHelper_ childOperation childTree
           ((SyncTree.adoptCache sc t.value).map (fun n => n.getImmediateChild k)) (wc.child k)
       | _, _ => []) ++
      (match t.value with
       | some sp => SyncTree.SyncPoint.applyOperation sp op wc (SyncTree.adoptCache sc t.value)
       | none => []) := by
  rw [SyncTree.applyOperationHelper_.eq_def]
  split
  · rename_i hp
    rw [h] at hp
    cases hp
  · rename_i k' tail' hp
    rw [h] at hp
    injection hp with hk htail
    subst hk
    rcases hl : lookupKV t.children k with _ | ct <;>
      rcases ho : op.operationForChild k with _ | cop <;>
        simp [hl, ho]

theorem opForChild_path {op : Operation} {k : Str} {tail : FPath} {cop : Operation}
    (hp : op.path = k :: tail) (hc : op.operationForChild k = some cop) : cop.path = tail := by
  cases op <;>
    simp only [Operation.path] at hp <;>
    subst hp <;>
    simp only [Operation.operationForChild, if_pos rfl, if_true, Option.some.injEq] at hc <;>
    subst hc <;>
    simp [Operation.path]

theorem applyOperation_event_path {sp : SyncPoint} {op : Operation} {wc : WriteTreeRef}
    {sc : Option SNode} {e : Event}
    (he : e ∈ SyncTree.SyncPoint.applyOperation sp op wc sc) :
    ∃ vw ∈ sp.views, e.path = vw.query.path := by
  unfold SyncTree.SyncPoint.applyOperation at he
  rcases hsrc : op.source with _ | _ | qid <;> rw [hsrc] at he
  · simp only [List.mem_map] at he
    obtain ⟨vw, hvw, hev⟩ := he
    exact ⟨vw, hvw, by rw [← hev]⟩
  · simp only [List.mem_map] at he
    obtain ⟨vw, hvw, hev⟩ := he
    exact ⟨vw, hvw, by rw [← hev]⟩
  · cases hf : sp.views.find? (fun v => v.query.queryId == qid) with
    | some v =>
      simp [hf] at he
      exact ⟨v, List.mem_of_find?_eq_some hf, by rw [he]⟩
    | none =>
      simp [hf] at he

theorem spEvents_paths {v : Option SyncPoint} {pfx : FPath} {op : Operation}
    {wc : WriteTreeRef} {sc : Option SNode}
    (hv : ∀ sp, v = some sp → ∀ vw ∈ sp.views, vw.query.path = pfx) :
    ∀ e ∈ (match v with
            | some sp => SyncTree.SyncPoint.applyOperation sp op wc sc
            | none => ([] : List Event)), e.path = pfx := by
  intro e he
  cases v with
  | some sp =>
    obtain ⟨vw, hvw, hev⟩ := applyOperation_event_path he
    rw [hev]
    exact hv sp rfl vw hvw
  | none => simp at he

theorem descChildren_wf {pfx : FPath} (cs : List (Str × ITree SyncPoint))
    (H : ∀ k c, (k, c) ∈ cs → ∀ (op : Operation) (sc : Option SNode) (wc : WriteTreeRef),
      (∀ e ∈ SyncTree.applyOperationDescendantsHelper_ op c sc wc,
        pathLe (pfx ++ [k]) e.path = true) ∧
      eventOrdered (SyncTree.applyOperationDescendantsHelper_ op c sc wc))
    (hnodup : (cs.map Prod.fst).Nodup) (op : Operation) (sc : Option SNode)
    (wc : WriteTreeRef) :
    (∀ e ∈ SyncTree.descendantsChildren_ op cs sc wc,
      ∃ k, k ∈ cs.map Prod.fst ∧ pathLe (pfx ++ [k]) e.path = true) ∧
    eventOrdered (SyncTree.descendantsChildren_ op cs sc wc) := by
  induction cs with
  | nil =>
    constructor
    · intro e he
      simp [SyncTree.descendantsChildren_] at he
    · simp [SyncTree.descendantsChildren_, eventOrdered]
  | cons hd rest ih =>
    obtain ⟨k, c⟩ := hd
    rw [List.map_cons, List.nodup_cons] at hnodup
    have hH := H k c (List.mem_cons_self _ _)
    have ihr := ih (fun k' c' hm => H k' c' (List.mem_cons_of_mem _ hm)) hnodup.2
    have hheadmem : ∀ e ∈ (match op.operationForChild k with
        | some cop => SyncTree.applyOperationDescendantsHelper_ cop c
            (sc.map (fun (n : SNode) => n.getImmediateChild k)) (wc.child k)
        | none => ([] : List Event)), pathLe (pfx ++ [k]) e.path = true := by
      intro e he
      cases ho : op.operationForChild k with
      | some cop =>
        rw [ho] at he
        exact (hH cop _ _).1 e he
      | none => rw [ho] at he; simp at he
    have hheadord : eventOrdered (match op.operationForChild k with
        | some cop => SyncTree.applyOperationDescendantsHelper_ cop c
            (sc.map (fun (n : SNode) => n.getImmediateChild k)) (wc.child k)
        | none => ([] : List Event)) := by
      cases ho : op.operationForChild k with
      | some cop => exact (hH cop _ _).2
      | none => exact List.Pairwise.nil
    constructor
    · intro e he
      simp only [SyncTree.descendantsChildren_] at he
      rcases List.mem_append.mp he with he | he
      · exact ⟨k, List.mem_map.mpr ⟨(k, c), List.mem_cons_self _ _, rfl⟩, hheadmem e he⟩
      · obtain ⟨k', hk', hle⟩ := ihr.1 e he
        exact ⟨k', by simp only [List.map_cons]; exact List.mem_cons_of_mem _ hk', hle⟩
    · show eventOrdered (SyncTree.descendantsChildren_ op ((k, c) :: rest) sc wc)
      simp only [SyncTree.descendantsChildren_]
      refine (List.pairwise_append).mpr ⟨hheadord, ihr.2, ?_⟩
      intro e1 he1 e2 he2
      have h1 := hheadmem e1 he1
      obtain ⟨k', hk', h2⟩ := ihr.1 e2 he2
      have hkk : k ≠ k' := fun he => hnodup.1 (he ▸ hk')
      exact notAnc_of_diff_child hkk h1 h2

theorem descHelper_wf {pfx : FPath} {t : ITree SyncPoint} (hwf : WFTree pfx t) :
    ∀ (op : Operation) (sc : Option SNode) (wc : WriteTreeRef),
      (∀ e ∈ SyncTree.applyOperationDescendantsHelper_ op t sc wc,
        pathLe pfx e.path = true) ∧
      eventOrdered (SyncTree.applyOperationDescendantsHelper_ op t sc wc) := by
  induction hwf with
  | @mk pfx v cs hv hcs hnodup ih =>
    intro op sc wc
    have hchild := descChildren_wf cs (fun k c hm => ih k c hm) hnodup op
      (SyncTree.adoptCache sc v) wc
    have hsp := @spEvents_paths v pfx op wc (SyncTree.adoptCache sc v) hv
    simp only [SyncTree.applyOperationDescendantsHelper_]
    constructor
    · intro e he
      rcases List.mem_append.mp he with he | he
      · obtain ⟨k, _, hle⟩ := hchild.1 e he
        exact pathLe_trans (pathLe_append pfx [k]) hle
      · rw [hsp e he]
        exact pathLe_refl pfx
    · refine (List.pairwise_append).mpr ⟨hchild.2, eventOrdered_of_const hsp, ?_⟩
      intro e1 he1 e2 he2
      obtain ⟨k, _, h1⟩ := hchild.1 e1 he1
      refine notAnc_of_longer ?_
      rw [hsp e2 he2]
      have := pathLe_length h1
      simp at this
      omega

theorem helper_wf (n : Nat) :
    ∀ (op : Operation), op.path.length ≤ n →
      ∀ {pfx : FPath} {t : ITree SyncPoint}, WFTree pfx t →
        ∀ (sc : Option SNode) (wc : WriteTreeRef),
          (∀ e ∈ SyncTree.applyOperationHelper_ op t sc wc, pathLe pfx e.path = true) ∧
          eventOrdered (SyncTree.applyOperationHelper_ op t sc wc) := by
  induction n with
  | zero =>
    intro op hlen pfx t hwf sc wc
    have hp : op.path = [] := by
      cases hop : op.path with
      | nil => rfl
      | cons a b => rw [hop] at hlen; simp at hlen
    rw [helper_eq_nil _ _ _ _ hp]
    exact descHelper_wf hwf op sc wc
  | succ n ih =>
    intro op hlen pfx t hwf sc wc
    cases hop : op.path with
    | nil =>
      rw [helper_eq_nil _ _ _ _ hop]
      exact descHelper_wf hwf op sc wc
    | cons k tail =>
      rw [helper_eq_cons _ _ _ _ _ _ hop]
      have hsp : ∀ e ∈ (match t.value with
          | some sp => SyncTree.SyncPoint.applyOperation sp op wc (SyncTree.adoptCache sc t.value)
          | none => ([] : List Event)), e.path = pfx := by
        cases t with
        | mk v cs => exact spEvents_paths (fun sp hv vw hvw => hwf.value_views hv hvw)
      have hchildmem : ∀ e ∈ (match lookupKV t.children k, op.operationForChild k with
          | some childTree, some childOperation =>
            SyncTree.applyOperationHelper_ childOperation childTree
              ((SyncTree.adoptCache sc t.value).map (fun (m : SNode) => m.getImmediateChild k))
              (wc.child k)
          | _, _ => ([] : List Event)), pathLe (pfx ++ [k]) e.path = true := by
        intro e he
        cases hl : lookupKV t.children k with
        | some ct =>
          cases ho : op.operationForChild k with
          | some cop =>
            rw [hl, ho] at he
            have hwfc : WFTree (pfx ++ [k]) ct := hwf.child (lookupKV_mem hl)
            have hcl : cop.path.length ≤ n := by
              have := opForChild_path hop ho
              rw [this] at *
              rw [hop] at hlen
              simpa using Nat.lt_succ_iff.mp (Nat.lt_of_lt_of_le (by simp) hlen)
            exact (ih cop hcl hwfc _ _).1 e he
          | none => rw [hl, ho] at he; simp at he
        | none => rw [hl] at he; simp at he
      have hchildord : eventOrdered (match lookupKV t.children k, op.operationForChild k with
          | some childTree, some childOperation =>
            SyncTree.applyOperationHelper_ childOperation childTree
              ((SyncTree.adoptCache sc t.value).map (fun (m : SNode) => m.getImmediateChild k))
              (wc.child k)
          | _, _ => ([] : List Event)) := by
        cases hl : lookupKV t.children k with
        | some ct =>
          cases ho : op.operationForChild k with
          | some cop =>
            have hwfc : WFTree (pfx ++ [k]) ct := hwf.child (lookupKV_mem hl)
            have hcl : cop.path.length ≤ n := by
              have hcp := opForChild_path hop ho
              rw [hop] at hlen
              rw [hcp]
              simpa using Nat.lt_succ_iff.mp (Nat.lt_of_lt_of_le (by simp) hlen)
            exact (ih cop hcl hwfc _ _).2
          | none => exact List.Pairwise.nil
        | none => exact List.Pairwise.nil
      constructor
      · intro e he
        rcases List.mem_append.mp he with he | he
        · exact pathLe_trans (pathLe_append pfx [k]) (hchildmem e he)
        · rw [hsp e he]
          exact pathLe_refl pfx
      · refine (List.pairwise_append).mpr ⟨hchildord, eventOrdered_of_const hsp, ?_⟩
        intro e1 he1 e2 he2
        have h1 := hchildmem e1 he1
        refine notAnc_of_longer ?_
        rw [hsp e2 he2]
        have := pathLe_length h1
        simp at this
        omega

/-- The master ordering property of `applyOperationToSyncPoints_` over any
well-formed sync point tree. -/
theorem applyOperationToSyncPoints_ordered {s : SyncTree}
    (hwf : WFTree [] s.syncPointTree) (op : Operation) :
    eventOrdered (SyncTree.applyOperationToSyncPoints_ s op) :=
  (helper_wf op.path.length op (Nat.le_refl _) hwf none
    (WriteTree.childWrites s.pendingWriteTree [])).2

theorem WFTree_get {pfx : FPath} {t : ITree SyncPoint} (h : WFTree pfx t) {p : FPath}
    {sp : SyncPoint} (hg : t.get p = some sp) :
    ∀ vw ∈ sp.views, vw.query.path = pfx ++ p := by
  induction p generalizing pfx t with
  | nil =>
    intro vw hvw
    simp only [ITree.get] at hg
    simpa using h.value_views hg hvw
  | cons k rest ih =>
    intro vw hvw
    simp only [ITree.get] at hg
    cases hl : lookupKV t.children k with
    | some c =>
      rw [hl] at hg
      have := ih (h.child (lookupKV_mem hl)) hg vw hvw
      simpa using this
    | none => rw [hl] at hg; cases hg

theorem addER_views {sp : SyncPoint} {q : Query} {reg : Registration} {wc : WriteTreeRef}
    {n : SNode} {b : Bool} :
    ∀ v ∈ (SyncPoint.addEventRegistration sp q reg wc n b).2.views,
      v.query = q ∨ ∃ v0 ∈ sp.views, v.query = v0.query := by
  intro v hv
  unfold SyncPoint.addEventRegistration at hv
  by_cases hex : sp.viewExistsForQuery q
  · simp only [hex, if_true] at hv
    simp only [List.mem_map] at hv
    obtain ⟨v0, hv0, hveq⟩ := hv
    by_cases hid : v0.query.queryId == q.queryId
    · right
      refine ⟨v0, hv0, ?_⟩
      rw [← hveq]
      simp [hid]
    · right
      refine ⟨v0, hv0, ?_⟩
      rw [← hveq]
      simp [hid]
  · simp only [hex, if_false, Bool.false_eq_true] at hv
    rcases List.mem_append.mp hv with hv | hv
    · exact Or.inr ⟨v, hv, rfl⟩
    · simp at hv
      subst hv
      exact Or.inl rfl

theorem addER_views_ne_nil {sp : SyncPoint} {q : Query} {reg : Registration}
    {wc : WriteTreeRef} {n : SNode} {b : Bool} :
    (SyncPoint.addEventRegistration sp q reg wc n b).2.views ≠ [] := by
  unfold SyncPoint.addEventRegistration
  by_cases hex : sp.viewExistsForQuery q
  · simp only [hex, if_true]
    intro hnil
    simp at hnil
    unfold SyncPoint.viewExistsForQuery at hex
    rw [hnil] at hex
    simp at hex
  · simp only [hex, if_false, Bool.false_eq_true]
    simp

theorem removeFromViews_views {vs : List View} {affect : View → Bool}
    {reg : Option Registration} :
    ∀ v ∈ (removeFromViews vs affect reg).1, ∃ v0 ∈ vs, v.query = v0.query := by
  induction vs with
  | nil => intro v hv; simp [removeFromViews] at hv
  | cons v0 rest ih =>
    intro v hv
    simp only [removeFromViews] at hv
    by_cases ha : affect v0
    · simp only [ha, if_true] at hv
      cases hreg : (match reg with
        | none => ([] : List Registration)
        | some r0 => v0.regs.erase r0) with
      | nil =>
        rw [hreg] at hv
        simp only [if_pos rfl] at hv
        obtain ⟨w, hw, hq⟩ := ih v hv
        exact ⟨w, List.mem_cons_of_mem _ hw, hq⟩
      | cons a b =>
        rw [hreg] at hv
        rw [if_neg (List.cons_ne_nil a b)] at hv
        rcases List.mem_cons.mp hv with hv | hv
        · subst hv
          exact ⟨v0, List.mem_cons_self _ _, rfl⟩
        · obtain ⟨w, hw, hq⟩ := ih v hv
          exact ⟨w, List.mem_cons_of_mem _ hw, hq⟩
    · simp only [ha, if_false, Bool.false_eq_true] at hv
      rcases List.mem_cons.mp hv with hv | hv
      · subst hv
        exact ⟨v, List.mem_cons_self _ _, rfl⟩
      · obtain ⟨w, hw, hq⟩ := ih v hv
        exact ⟨w, List.mem_cons_of_mem _ hw, hq⟩

theorem removeTags_fields (qs : List Query) (s : SyncTree) :
    (SyncTree.removeTags_ s qs).syncPointTree = s.syncPointTree ∧
    (SyncTree.removeTags_ s qs).nextQueryTag = s.nextQueryTag ∧
    (SyncTree.removeTags_ s qs).pendingWriteTree = s.pendingWriteTree := by
  induction qs generalizing s with
  | nil => exact ⟨rfl, rfl, rfl⟩
  | cons q rest ih =>
    simp only [SyncTree.removeTags_]
    by_cases hq : q.loadsAll
    · simpa [hq] using ih s
    · simp only [hq, if_false, Bool.false_eq_true]
      cases hl : s.queryToTagMap (SyncTree.makeQueryKey_ q) with
      | some t0 => simpa [hl] using ih _
      | none => simpa [hl] using ih _

theorem MapsInv_insert {s : SyncTree} {key : Str}
    (hnone : s.queryToTagMap key = none)
    (hq : ∃ q : Query, SyncTree.makeQueryKey_ q = key ∧ q.loadsAll = false)
    (h : MapsInv s) :
    MapsInv { s with
      queryToTagMap := fun k => if k = key then some s.nextQueryTag else s.queryToTagMap k,
      tagToQueryMap := fun t => if t = s.nextQueryTag then some key else s.tagToQueryMap t,
      nextQueryTag := s.nextQueryTag + 1 } := by
  obtain ⟨h1, h2, h3, h4⟩ := h
  refine ⟨?_, ?_, ?_, ?_⟩
  · intro t k hk
    by_cases ht : t = s.nextQueryTag
    · subst ht
      simp only [if_pos rfl, if_true, Option.some.injEq] at hk
      subst hk
      simp
    · simp only [if_neg ht] at hk
      have hx := h1 t k hk
      by_cases hkey : k = key
      · subst hkey
        rw [hnone] at hx
        cases hx
      · simpa [hkey] using hx
  · intro k t hk
    by_cases hkey : k = key
    · subst hkey
      simp only [if_pos rfl, if_true, Option.some.injEq] at hk
      subst hk
      simp
    · simp only [if_neg hkey] at hk
      have hx := h2 k t hk
      have hlt := h3 k t hk
      have hne : t ≠ s.nextQueryTag := by omega
      simpa [hne] using hx
  · intro k t hk
    by_cases hkey : k = key
    · subst hkey
      simp only [if_pos rfl, if_true, Option.some.injEq] at hk
      subst hk
      simp
    · simp only [if_neg hkey] at hk
      have := h3 k t hk
      simp only []
      omega
  · intro t k hk
    by_cases ht : t = s.nextQueryTag
    · subst ht
      simp only [if_pos rfl, if_true, Option.some.injEq] at hk
      subst hk
      exact hq
    · simp only [if_neg ht] at hk
      exact h4 t k hk

theorem MapsInv_removeTags (qs : List Query) (s : SyncTree) (h : MapsInv s) :
    MapsInv (SyncTree.removeTags_ s qs) := by
  induction qs generalizing s with
  | nil => exact h
  | cons q rest ih =>
    simp only [SyncTree.removeTags_]
    by_cases hq : q.loadsAll
    · simpa [hq] using ih s h
    · simp only [hq, if_false, Bool.false_eq_true]
      obtain ⟨h1, h2, h3, h4⟩ := h
      cases hl : s.queryToTagMap (SyncTree.makeQueryKey_ q) with
      | some t0 =>
        refine ih _ ⟨?_, ?_, ?_, ?_⟩
        · intro t k hk
          by_cases ht : t = t0
          · subst ht; simp at hk
          · simp only [if_neg ht] at hk
            have hx := h1 t k hk
            have hkey : k ≠ SyncTree.makeQueryKey_ q := by
              intro he
              subst he
              rw [hl] at hx
              injection hx with hx'
              exact ht hx'.symm
            simpa [hkey] using hx
        · intro k t hk
          by_cases hkey : k = SyncTree.makeQueryKey_ q
          · subst hkey; simp at hk
          · simp only [if_neg hkey] at hk
            have hx := h2 k t hk
            have ht : t ≠ t0 := by
              intro he
              have hk2 := h2 k t hk
              have hl2 := h2 _ _ hl
              rw [he] at hk2
              rw [hk2] at hl2
              injection hl2 with hl3
              exact hkey hl3
            simpa [ht] using hx
        · intro k t hk
          by_cases hkey : k = SyncTree.makeQueryKey_ q
          · subst hkey; simp at hk
          · simp only [if_neg hkey] at hk
            exact h3 k t hk
        · intro t k hk
          by_cases ht : t = t0
          · subst ht; simp at hk
          · simp only [if_neg ht] at hk
            exact h4 t k hk
      | none =>
        refine ih _ ⟨?_, ?_, ?_, ?_⟩
        · intro t k hk
          have hx := h1 t k hk
          have hkey : k ≠ SyncTree.makeQueryKey_ q := by
            intro he
            subst he
            rw [hl] at hx
            cases hx
          simpa [hkey] using hx
        · intro k t hk
          by_cases hkey : k = SyncTree.makeQueryKey_ q
          · subst hkey; simp at hk
          · simp only [if_neg hkey] at hk
            exact h2 k t hk
        · intro k t hk
          by_cases hkey : k = SyncTree.makeQueryKey_ q
          · subst hkey; simp at hk
          · simp only [if_neg hkey] at hk
            exact h3 k t hk
        · intro t k hk
          exact h4 t k hk

theorem afterLookup_st_shape {s : SyncTree} {q : Query} {reg : Registration} {sp : SyncPoint}
    {tree1 : ITree SyncPoint} {found : Bool} {sc : Option SNode} {out : Out}
    (h : SyncTree.addEventRegistrationAfterLookup s q reg sp tree1 found sc = some out) :
    ∃ (s1 : SyncTree) (wc : WriteTreeRef) (n : SNode) (b : Bool),
      out.st = { s1 with
        syncPointTree := tree1.set q.path (SyncPoint.addEventRegistration sp q reg wc n b).2 } ∧
      (s1 = s ∨
        (s.queryToTagMap (SyncTree.makeQueryKey_ q) = none ∧ q.loadsAll = false ∧
          s1 = { s with
            queryToTagMap := fun k =>
              if k = SyncTree.makeQueryKey_ q then some s.nextQueryTag else s.queryToTagMap k,
            tagToQueryMap := fun t =>
              if t = s.nextQueryTag then some (SyncTree.makeQueryKey_ q) else s.tagToQueryMap t,
            nextQueryTag := s.nextQueryTag + 1 })) := by
  unfold SyncTree.addEventRegistrationAfterLookup at h
  dsimp only at h
  split at h
  · simp at h
  · rename_i s1 heq
    have hs1 : s1 = s ∨
        (s.queryToTagMap (SyncTree.makeQueryKey_ q) = none ∧ q.loadsAll = false ∧
         s1 = { s with
           queryToTagMap := fun k =>
             if k = SyncTree.makeQueryKey_ q then some s.nextQueryTag else s.queryToTagMap k,
           tagToQueryMap := fun t =>
             if t = s.nextQueryTag then some (SyncTree.makeQueryKey_ q) else s.tagToQueryMap t,
           nextQueryTag := s.nextQueryTag + 1 }) := by
      by_cases hcond : (!sp.viewExistsForQuery q && !q.loadsAll) = true
      · rw [if_pos hcond] at heq
        by_cases hsome : (s.queryToTagMap (SyncTree.makeQueryKey_ q)).isSome = true
        · rw [if_pos hsome] at heq
          cases heq
        · rw [if_neg hsome] at heq
          injection heq with heq
          right
          refine ⟨?_, ?_, heq.symm⟩
          · cases hq : s.queryToTagMap (SyncTree.makeQueryKey_ q) with
            | none => rfl
            | some t => rw [hq] at hsome; simp at hsome
          · simp only [Bool.and_eq_true, Bool.not_eq_true'] at hcond
            exact hcond.2
      · rw [if_neg hcond] at heq
        injection heq with heq
        left
        exact heq.symm
    split at h
    · split at h
      · simp at h
      · split at h
        · simp at h
        · injection h with h
          exact ⟨s1, _, _, _, by rw [← h], hs1⟩
    · injection h with h
      exact ⟨s1, _, _, _, by rw [← h], hs1⟩

theorem SyncInv_afterLookup {s : SyncTree} {q : Query} {reg : Registration} {sp : SyncPoint}
    {tree1 : ITree SyncPoint} {found : Bool} {sc : Option SNode} {out : Out}
    (hInv : SyncInv s)
    (htree : (tree1 = s.syncPointTree ∧ s.syncPointTree.get q.path = some sp) ∨
             (tree1 = s.syncPointTree.set q.path SyncPoint.emptySP ∧ sp = SyncPoint.emptySP))
    (h : SyncTree.addEventRegistrationAfterLookup s q reg sp tree1 found sc = some out) :
    SyncInv out.st := by
  have hmaps : MapsInv s := hInv.1
  have hne := hInv.2.1
  have hwf : WFTree [] s.syncPointTree := hInv.2.2
  have hspv : ∀ vw ∈ sp.views, vw.query.path = q.path := by
    rcases htree with ⟨_, hget⟩ | ⟨_, hsp⟩
    · intro vw hvw
      simpa using WFTree_get hwf hget vw hvw
    · subst hsp
      intro vw hvw
      simp [SyncPoint.emptySP] at hvw
  have hwf1 : WFTree [] tree1 := by
    rcases htree with ⟨he, _⟩ | ⟨he, _⟩
    · rw [he]; exact hwf
    · rw [he]
      exact WFTree_set hwf q.path (by intro vw hvw; simp [SyncPoint.emptySP] at hvw)
  have hget1 : ∀ p, p ≠ q.path → tree1.get p = s.syncPointTree.get p := by
    intro p hp
    rcases htree with ⟨he, _⟩ | ⟨he, _⟩
    · rw [he]
    · rw [he]
      exact ITree.get_set_ne _ _ _ _ (fun he2 => hp he2.symm)
  obtain ⟨s1, wc, n, b, hst, hs1⟩ := afterLookup_st_shape h
  have hm1 : MapsInv s1 := by
    rcases hs1 with hs1 | ⟨hnone, hfiltered, hs1⟩
    · rw [hs1]; exact hmaps
    · rw [hs1]
      exact MapsInv_insert hnone ⟨q, rfl, hfiltered⟩ hmaps
  rw [hst]
  refine ⟨hm1, ?_, ?_⟩
  · intro p sp2 hget
    by_cases hp : p = q.path
    · subst hp
      rw [show ({ s1 with
          syncPointTree := tree1.set q.path (SyncPoint.addEventRegistration sp q reg wc n b).2 } : SyncTree).syncPointTree = tree1.set q.path (SyncPoint.addEventRegistration sp q reg wc n b).2 from rfl,
        ITree.get_set_self] at hget
      injection hget with hget
      rw [← hget]
      exact addER_views_ne_nil
    · rw [show ({ s1 with
          syncPointTree := tree1.set q.path (SyncPoint.addEventRegistration sp q reg wc n b).2 } : SyncTree).syncPointTree = tree1.set q.path (SyncPoint.addEventRegistration sp q reg wc n b).2 from rfl,
        ITree.get_set_ne _ _ _ _ (fun he => hp he.symm), hget1 p hp] at hget
      exact hne p sp2 hget
  · refine WFTree_set hwf1 q.path ?_
    intro vw hvw
    rcases addER_views vw hvw with hvq | ⟨v0, hv0, hvq⟩
    · simp [hvq]
    · rw [hvq]
      simpa using hspv v0 hv0

theorem spRemove_views {sp : SyncPoint} {q : Query} {reg : Option Registration} {err : Bool} :
    ∀ v ∈ (SyncPoint.removeEventRegistration sp q reg err).1.views,
      ∃ v0 ∈ sp.views, v.query = v0.query := by
  intro v hv
  unfold SyncPoint.removeEventRegistration at hv
  exact removeFromViews_views v hv

theorem SyncInv_remove (s : SyncTree) (q : Query) (reg : Option Registration) (err : Bool)
    (hInv : SyncInv s) : SyncInv (SyncTree.removeEventRegistration s q reg err).st := by
  have hmaps : MapsInv s := hInv.1
  have hne := hInv.2.1
  have hwf : WFTree [] s.syncPointTree := hInv.2.2
  unfold SyncTree.removeEventRegistration
  dsimp only
  split
  · rename_i sp hget
    split
    · dsimp only
      set spr := SyncPoint.removeEventRegistration sp q reg err with hspr
      set tree' := if spr.1.isEmptySP = true then s.syncPointTree.remove q.path
                   else s.syncPointTree.set q.path spr.1 with htree'
      have hs1 : SyncInv { s with syncPointTree := tree' } := by
        refine ⟨hmaps, ?_, ?_⟩
        · intro p sp2 hget2
          rw [htree'] at hget2
          by_cases hemp : spr.1.isEmptySP = true
          · rw [if_pos hemp] at hget2
            by_cases hp : p = q.path
            · subst hp
              rw [ITree.get_remove_self] at hget2
              cases hget2
            · rw [ITree.get_remove_ne _ _ _ (fun he => hp he.symm)] at hget2
              exact hne p sp2 hget2
          · rw [if_neg hemp] at hget2
            by_cases hp : p = q.path
            · subst hp
              rw [ITree.get_set_self] at hget2
              injection hget2 with hget2
              rw [← hget2]
              intro hnil
              rw [SyncPoint.isEmptySP, hnil] at hemp
              simp at hemp
            · rw [ITree.get_set_ne _ _ _ _ (fun he => hp he.symm)] at hget2
              exact hne p sp2 hget2
        · show WFTree [] tree'
          rw [htree']
          by_cases hemp : spr.1.isEmptySP = true
          · rw [if_pos hemp]
            exact WFTree_remove hwf q.path
          · rw [if_neg hemp]
            refine WFTree_set hwf q.path ?_
            intro vw hvw
            obtain ⟨v0, hv0, hvq⟩ := spRemove_views vw hvw
            rw [hvq]
            exact WFTree_get hwf hget v0 hv0
      obtain ⟨hrt1, hrt2, hrt3⟩ := removeTags_fields spr.2.1 { s with syncPointTree := tree' }
      refine ⟨MapsInv_removeTags _ _ hs1.1, ?_, ?_⟩
      · intro p sp2 hget2
        rw [hrt1] at hget2
        exact hs1.2.1 p sp2 hget2
      · show WFTree []
          (SyncTree.removeTags_ { s with syncPointTree := tree' } spr.2.1).syncPointTree
        rw [hrt1]
        exact hs1.2.2
    · exact hInv
  · exact hInv

theorem SyncInv_add {s : SyncTree} {q : Query} {reg : Registration} {out : Out}
    (hInv : SyncInv s) (h : SyncTree.addEventRegistration s q reg = some out) :
    SyncInv out.st := by
  unfold SyncTree.addEventRegistration at h
  dsimp only at h
  split at h
  · exact SyncInv_afterLookup hInv (Or.inr ⟨rfl, rfl⟩) h
  · rename_i sp hget
    exact SyncInv_afterLookup hInv (Or.inl ⟨rfl, hget⟩) h

theorem applyUserOverwrite_st (s : SyncTree) (p : FPath) (n : SNode) (w : Nat) (v : Bool) :
    (SyncTree.applyUserOverwrite s p n w v).st =
      { s with pendingWriteTree := WriteTree.addOverwrite s.pendingWriteTree p n w v } := by
  unfold SyncTree.applyUserOverwrite
  dsimp only
  split <;> rfl

theorem applyUserMerge_st (s : SyncTree) (p : FPath) (c : List (Str × SNode)) (w : Nat) :
    (SyncTree.applyUserMerge s p c w).st =
      { s with pendingWriteTree := WriteTree.addMerge s.pendingWriteTree p c w } := rfl

theorem ack_st {s : SyncTree} {wid : Nat} {revert : Bool} {out : Out}
    (h : SyncTree.ackUserWrite s wid revert = some out) :
    out.st = { s with pendingWriteTree := (WriteTree.removeWrite s.pendingWriteTree wid).1 } := by
  unfold SyncTree.ackUserWrite at h
  split at h
  · cases h
  · dsimp only at h
    split at h
    · injection h with h
      rw [← h]
    · injection h with h
      rw [← h]

theorem taggedOp_st {s : SyncTree} {p : FPath} {out : Out}
    {f : SyncTree → FPath → Nat → Option Out} (tag : Nat)
    (hf : f = SyncTree.applyTaggedListenComplete) (h : f s p tag = some out) : out.st = s := by
  subst hf
  unfold SyncTree.applyTaggedListenComplete at h
  split at h
  · split at h
    · cases h
    · split at h
      · cases h
      · simp only [Option.map_eq_some'] at h
        obtain ⟨ev, _, hev⟩ := h
        rw [← hev]
  · injection h with h
    rw [← h]

theorem taggedOverwrite_st {s : SyncTree} {p : FPath} {n : SNode} {tag : Nat} {out : Out}
    (h : SyncTree.applyTaggedQueryOverwrite s p n tag = some out) : out.st = s := by
  unfold SyncTree.applyTaggedQueryOverwrite at h
  split at h
  · split at h
    · cases h
    · split at h
      · cases h
      · simp only [Option.map_eq_some'] at h
        obtain ⟨ev, _, hev⟩ := h
        rw [← hev]
  · injection h with h
    rw [← h]

theorem taggedMerge_st {s : SyncTree} {p : FPath} {c : List (Str × SNode)} {tag : Nat} {out : Out}
    (h : SyncTree.applyTaggedQueryMerge s p c tag = some out) : out.st = s := by
  unfold SyncTree.applyTaggedQueryMerge at h
  split at h
  · split at h
    · cases h
    · split at h
      · cases h
      · simp only [Option.map_eq_some'] at h
        obtain ⟨ev, _, hev⟩ := h
        rw [← hev]
  · injection h with h
    rw [← h]

theorem taggedListenComplete_st {s : SyncTree} {p : FPath} {tag : Nat} {out : Out}
    (h : SyncTree.applyTaggedListenComplete s p tag = some out) : out.st = s :=
  taggedOp_st tag rfl h

theorem SyncInv_pending (s : SyncTree) (wt : WriteTree) (h : SyncInv s) :
    SyncInv { s with pendingWriteTree := wt } := h

theorem SyncInv_runCmd {s s' : SyncTree} {c : Cmd} (hInv : SyncInv s)
    (h : runCmd s c = some s') : SyncInv s' := by
  cases c with
  | add q r =>
    simp only [runCmd, Option.map_eq_some'] at h
    obtain ⟨out, hout, hst⟩ := h
    rw [← hst]
    exact SyncInv_add hInv hout
  | remove q r e =>
    simp only [runCmd, Option.some.injEq] at h
    rw [← h]
    exact SyncInv_remove s q r e hInv
  | userOverwrite p n w v =>
    simp only [runCmd, Option.some.injEq] at h
    rw [← h, applyUserOverwrite_st]
    exact SyncInv_pending _ _ hInv
  | userMerge p cc w =>
    simp only [runCmd, Option.some.injEq] at h
    rw [← h, applyUserMerge_st]
    exact SyncInv_pending _ _ hInv
  | ack w r =>
    simp only [runCmd, Option.map_eq_some'] at h
    obtain ⟨out, hout, hst⟩ := h
    rw [← hst, ack_st hout]
    exact SyncInv_pending _ _ hInv
  | serverOverwrite p n =>
    simp only [runCmd, Option.some.injEq] at h
    rw [← h]
    exact hInv
  | serverMerge p cc =>
    simp only [runCmd, Option.some.injEq] at h
    rw [← h]
    exact hInv
  | listenComplete p =>
    simp only [runCmd, Option.some.injEq] at h
    rw [← h]
    exact hInv
  | taggedOverwrite p n t =>
    simp only [runCmd, Option.map_eq_some'] at h
    obtain ⟨out, hout, hst⟩ := h
    rw [← hst, taggedOverwrite_st hout]
    exact hInv
  | taggedMerge p cc t =>
    simp only [runCmd, Option.map_eq_some'] at h
    obtain ⟨out, hout, hst⟩ := h
    rw [← hst, taggedMerge_st hout]
    exact hInv
  | taggedListenComplete p t =>
    simp only [runCmd, Option.map_eq_some'] at h
    obtain ⟨out, hout, hst⟩ := h
    rw [← hst, taggedListenComplete_st hout]
    exact hInv

theorem SyncInv_initial : SyncInv initialSyncTree := by
  refine ⟨⟨?_, ?_, ?_, ?_⟩, ?_, ?_⟩
  · intro t k hk
    simp [initialSyncTree] at hk
  · intro k t hk
    simp [initialSyncTree] at hk
  · intro k t hk
    simp [initialSyncTree] at hk
  · intro t k hk
    simp [initialSyncTree] at hk
  · intro p sp hget
    rw [show initialSyncTree.syncPointTree = ITree.empty from rfl, ITree.get_empty] at hget
    cases hget
  · exact WFTree_empty []

theorem reachable_inv {s : SyncTree} (h : Reachable s) : SyncInv s := by
  induction h with
  | init => exact SyncInv_initial
  | step hr hc ih => exact SyncInv_runCmd ih hc

/-- C2: for every operation dispatched through `applyOperationToSyncPoints_`
(from any of the user, server, ack or listen-complete entry points), the
returned event list never lets an event of a sync point at path `p` precede
an event of a sync point at a strict descendant of `p`. -/
theorem claim2_dispatch_events_depth_first (s : SyncTree) (h : Reachable s) :
    (∀ op : Operation, eventOrdered (SyncTree.applyOperationToSyncPoints_ s op)) ∧
    (∀ p n w v, eventOrdered (SyncTree.applyUserOverwrite s p n w v).events) ∧
    (∀ p cc w, eventOrdered (SyncTree.applyUserMerge s p cc w).events) ∧
    (∀ w r out, SyncTree.ackUserWrite s w r = some out → eventOrdered out.events) ∧
    (∀ p n, eventOrdered (SyncTree.applyServerOverwrite s p n).events) ∧
    (∀ p cc, eventOrdered (SyncTree.applyServerMerge s p cc).events) ∧
    (∀ p, eventOrdered (SyncTree.applyListenComplete s p).events) := by
  have hwf : WFTree [] s.syncPointTree := (reachable_inv h).2.2
  refine ⟨fun op => applyOperationToSyncPoints_ordered hwf op, ?_, ?_, ?_, ?_, ?_, ?_⟩
  · intro p n w v
    unfold SyncTree.applyUserOverwrite
    dsimp only
    split
    · exact List.Pairwise.nil
    · exact applyOperationToSyncPoints_ordered hwf _
  · intro p cc w
    exact applyOperationToSyncPoints_ordered hwf _
  · intro w r out hout
    unfold SyncTree.ackUserWrite at hout
    split at hout
    · cases hout
    · dsimp only at hout
      split at hout
      · injection hout with hout
        rw [← hout]
        exact List.Pairwise.nil
      · injection hout with hout
        rw [← hout]
        exact applyOperationToSyncPoints_ordered hwf _
  · intro p n
    exact applyOperationToSyncPoints_ordered hwf _
  · intro p cc
    exact applyOperationToSyncPoints_ordered hwf _
  · intro p
    exact applyOperationToSyncPoints_ordered hwf _

/-- C3: a tagged overwrite, merge or listen-complete whose tag is not tracked
returns no events and leaves the whole state untouched. -/
theorem claim3_unknown_tag_is_noop (s : SyncTree) (path : FPath) (snap : SNode)
    (changedChildren : List (Str × SNode)) (tag : Nat)
    (h : s.tagToQueryMap tag = none) :
    SyncTree.applyTaggedQueryOverwrite s path snap tag = some ⟨[], [], s⟩ ∧
    SyncTree.applyTaggedQueryMerge s path changedChildren tag = some ⟨[], [], s⟩ ∧
    SyncTree.applyTaggedListenComplete s path tag = some ⟨[], [], s⟩ := by
  refine ⟨?_, ?_, ?_⟩ <;>
    simp [SyncTree.applyTaggedQueryOverwrite, SyncTree.applyTaggedQueryMerge,
      SyncTree.applyTaggedListenComplete, SyncTree.queryKeyForTag_, h]

/-- C4: in every reachable state the tag maps are mutual inverses and every
tracked tag names the key of a query that does not load all data. -/
theorem claim4_tag_maps_inverse (s : SyncTree) (h : Reachable s) :
    (∀ t k, s.tagToQueryMap t = some k → s.queryToTagMap k = some t) ∧
    (∀ k t, s.queryToTagMap k = some t → s.tagToQueryMap t = some k) ∧
    (∀ t k, s.tagToQueryMap t = some k →
      ∃ q : Query, SyncTree.makeQueryKey_ q = k ∧ q.loadsAll = false) := by
  obtain ⟨⟨h1, h2, _, h4⟩, _⟩ := reachable_inv h
  exact ⟨h1, h2, h4⟩

/-- C6: an invisible user overwrite records the pending write and returns no
events; a visible one records it and returns exactly the events of
dispatching a user-sourced overwrite operation. -/
theorem claim6_user_overwrite (s : SyncTree) (path : FPath) (newData : SNode) (writeId : Nat) :
    SyncTree.applyUserOverwrite s path newData writeId false =
      ⟨[], [], { s with pendingWriteTree :=
        s.pendingWriteTree ++ [⟨writeId, path, some newData, [], false⟩] }⟩ ∧
    SyncTree.applyUserOverwrite s path newData writeId true =
      ⟨SyncTree.applyOperationToSyncPoints_
          { s with pendingWriteTree :=
            s.pendingWriteTree ++ [⟨writeId, path, some newData, [], true⟩] }
          (.overwrite .user path newData), [],
        { s with pendingWriteTree :=
          s.pendingWriteTree ++ [⟨writeId, path, some newData, [], true⟩] }⟩ :=
  ⟨rfl, rfl⟩

/-- C8: in every reachable state every sync point present in the tree has at
least one view; a sync point drained by `removeEventRegistration` is removed
from the tree before the call returns. -/
theorem claim8_no_empty_sync_points (s : SyncTree) (h : Reachable s) :
    ∀ p sp, s.syncPointTree.get p = some sp → sp.views ≠ [] :=
  (reachable_inv h).2.1

theorem parsePathAux_key (k : Str) (hk : ∀ c ∈ k, c ≠ slashChar) :
    ∀ (s : Str) (cur : Str), parsePathAux (k ++ s) cur = parsePathAux s (k.reverse ++ cur) := by
  induction k with
  | nil => intro s cur; simp
  | cons c k' ih =>
    intro s cur
    have hc : c ≠ slashChar := hk c (List.mem_cons_self _ _)
    show parsePathAux (c :: (k' ++ s)) cur = _
    rw [parsePathAux, if_neg hc, ih (fun c2 hc2 => hk c2 (List.mem_cons_of_mem _ hc2))]
    simp

theorem parsePathAux_toStrAux (p : FPath) (hp : validPath p) :
    ∀ cur : Str, parsePathAux (toStrAux p) cur =
      (if cur = [] then [] else [cur.reverse]) ++ p := by
  induction p with
  | nil =>
    intro cur
    simp [toStrAux, parsePathAux]
  | cons k rest ih =>
    intro cur
    have hk : validKey k := hp k (List.mem_cons_self _ _)
    have hrest : validPath rest := fun k2 hk2 => hp k2 (List.mem_cons_of_mem _ hk2)
    show parsePathAux (slashChar :: (k ++ toStrAux rest)) cur = _
    rw [parsePathAux, if_pos rfl]
    have hkey : parsePathAux (k ++ toStrAux rest) [] = k :: rest := by
      rw [parsePathAux_key k (fun c hc he => hk.2.1 (he ▸ hc))]
      rw [ih hrest]
      have hkr : k.reverse ++ ([] : Str) ≠ [] := by
        simp
        exact hk.1
      rw [if_neg hkr]
      simp
    by_cases hcur : cur = []
    · rw [if_pos hcur, if_pos hcur, hkey]
      simp
    · rw [if_neg hcur, if_neg hcur, hkey]
      rfl

theorem parsePath_pathToStr (p : FPath) (hp : validPath p) : parsePath (pathToStr p) = p := by
  cases p with
  | nil => rfl
  | cons k rest =>
    show parsePathAux (toStrAux (k :: rest)) [] = k :: rest
    rw [parsePathAux_toStrAux (k :: rest) hp []]
    simp

theorem parsePath_single (k : Str) (hk : k ≠ []) (hs : slashChar ∉ k) : parsePath k = [k] := by
  have h1 := parsePathAux_key k (fun c hc he => hs (he ▸ hc)) [] []
  rw [List.append_nil] at h1
  show parsePathAux k [] = [k]
  rw [h1, parsePathAux, if_neg (by simpa using hk)]
  simp

theorem dollar_not_mem_pathToStr (p : FPath) (hp : validPath p) :
    dollarChar ∉ pathToStr p := by
  cases p with
  | nil =>
    intro hmem
    simp [pathToStr] at hmem
    exact absurd hmem (by simp [slashChar, dollarChar])
  | cons k rest =>
    intro hmem
    simp only [pathToStr, List.mem_flatten] at hmem
    obtain ⟨l, hl, hml⟩ := hmem
    simp only [List.mem_map] at hl
    obtain ⟨k2, hk2, hlk⟩ := hl
    rw [← hlk] at hml
    rcases List.mem_cons.mp hml with hml | hml
    · exact absurd hml (by simp [slashChar, dollarChar])
    · exact (hp k2 hk2).2.2 hml

theorem idxOfChar_dollar_append (l r : Str) (hl : dollarChar ∉ l) :
    SyncTree.idxOfChar dollarChar (l ++ dollarChar :: r) = some l.length := by
  induction l with
  | nil => simp [SyncTree.idxOfChar]
  | cons c l' ih =>
    have hc : ¬ (c = dollarChar) := fun he => hl (he ▸ List.mem_cons_self _ _)
    rw [List.cons_append]
    show SyncTree.idxOfChar dollarChar (c :: (l' ++ dollarChar :: r)) = _
    rw [SyncTree.idxOfChar, if_neg hc, ih (fun hm => hl (List.mem_cons_of_mem _ hm))]
    simp

theorem take_len_append (l r : List α) : (l ++ r).take l.length = l := by
  induction l with
  | nil => simp
  | cons a l' ih => simp [ih]

theorem drop_len_append (l r : List α) : (l ++ r).drop l.length = r := by
  induction l with
  | nil => simp
  | cons a l' ih => simp [ih]

/-- C7: parsing the query key produced for a query recovers the query's path
and identifier.  Keys of database paths are nonempty and contain neither the
path separator nor the query-key separator, and identifiers are nonempty. -/
theorem claim7_query_key_roundtrip (q : Query) (hp : validPath q.path)
    (hq : q.queryId ≠ []) :
    SyncTree.parseQueryKey_ (SyncTree.makeQueryKey_ q) = some (q.path, q.queryId) := by
  unfold SyncTree.makeQueryKey_ SyncTree.parseQueryKey_ Query.queryIdentifier
  rw [idxOfChar_dollar_append _ _ (dollar_not_mem_pathToStr q.path hp)]
  dsimp only
  have hlen : (pathToStr q.path).length + 1 < (pathToStr q.path ++ dollarChar :: q.queryId).length := by
    simp only [List.length_append, List.length_cons]
    have : 0 < q.queryId.length := List.length_pos.mpr hq
    omega
  rw [if_pos hlen]
  rw [take_len_append, parsePath_pathToStr q.path hp]
  have hdrop : (pathToStr q.path ++ dollarChar :: q.queryId).drop
      ((pathToStr q.path).length + 1) = q.queryId := by
    rw [← List.drop_drop, drop_len_append]
    simp
  rw [hdrop]

theorem foldl_set_get_notmem (l : List (Str × SNode)) (t : ITree AckValue) (p : FPath)
    (hp : ∀ kn ∈ l, parsePath kn.1 ≠ p) :
    (l.foldl (fun t2 kn => t2.set (parsePath kn.1) (AckValue.node kn.2)) t).get p =
      t.get p := by
  induction l generalizing t with
  | nil => rfl
  | cons kn0 rest ih =>
    show ((rest.foldl _ (t.set (parsePath kn0.1) (AckValue.node kn0.2)))).get p = _
    rw [ih _ (fun kn hkn => hp kn (List.mem_cons_of_mem _ hkn))]
    exact ITree.get_set_ne _ _ _ _ (hp kn0 (List.mem_cons_self _ _))

theorem foldl_set_get_mem (l : List (Str × SNode)) (t : ITree AckValue)
    (hnodup : (l.map Prod.fst).Nodup) (hkeys : ∀ kn ∈ l, validKey kn.1) :
    ∀ kn ∈ l,
      (l.foldl (fun t2 kn2 => t2.set (parsePath kn2.1) (AckValue.node kn2.2)) t).get [kn.1] =
        some (.node kn.2) := by
  induction l generalizing t with
  | nil => intro kn hkn; simp at hkn
  | cons kn0 rest ih =>
    rw [List.map_cons, List.nodup_cons] at hnodup
    intro kn hkn
    rcases List.mem_cons.mp hkn with hkn | hkn
    · subst hkn
      show ((rest.foldl _ (t.set (parsePath kn.1) (AckValue.node kn.2)))).get [kn.1] = _
      have hv := hkeys kn (List.mem_cons_self _ _)
      have hparse : parsePath kn.1 = [kn.1] := parsePath_single _ hv.1 hv.2.1
      rw [foldl_set_get_notmem _ _ _ ?hne]
      · rw [hparse, ITree.get_set_self]
      case hne =>
        intro kn2 hkn2
        have hv2 := hkeys kn2 (List.mem_cons_of_mem _ hkn2)
        rw [parsePath_single _ hv2.1 hv2.2.1]
        intro he
        have : kn2.1 = kn.1 := by simpa using he
        exact hnodup.1 (this ▸ List.mem_map.mpr ⟨kn2, hkn2, rfl⟩)
    · exact ih _ hnodup.2 (fun kn2 hkn2 => hkeys kn2 (List.mem_cons_of_mem _ hkn2)) kn hkn

/-- C1, amended: when `ackUserWrite` removes a write whose removal requires
reevaluation it dispatches an `AckUserWrite` operation; for a merge write the
affected tree holds exactly one entry per child path of the write, each entry
being that child's node (the source stores the node value, not the boolean
`true`); for an overwrite write it holds the single entry `true` at the empty
path. -/
theorem claim1_amended (s : SyncTree) (writeId : Nat) (revert : Bool) (w : PendingWrite)
    (hw : WriteTree.getWrite s.pendingWriteTree writeId = some w)
    (hre : (WriteTree.removeWrite s.pendingWriteTree writeId).2 = true)
    (hkeys : ∀ kn ∈ w.children, validKey kn.1)
    (hnodup : (w.children.map Prod.fst).Nodup) :
    SyncTree.ackUserWrite s writeId revert =
      some ⟨SyncTree.applyOperationToSyncPoints_
              { s with pendingWriteTree := (WriteTree.removeWrite s.pendingWriteTree writeId).1 }
              (.ackUserWrite w.path (SyncTree.ackAffectedTree w) revert), [],
            { s with pendingWriteTree :=
              (WriteTree.removeWrite s.pendingWriteTree writeId).1 }⟩ ∧
    (w.snap = none →
      (∀ kn ∈ w.children,
        (SyncTree.ackAffectedTree w).get [kn.1] = some (.node kn.2)) ∧
      (∀ p : FPath, (∀ kn ∈ w.children, [kn.1] ≠ p) →
        (SyncTree.ackAffectedTree w).get p = none)) ∧
    (∀ n, w.snap = some n →
      (SyncTree.ackAffectedTree w).get [] = some (.b true) ∧
      ∀ p : FPath, p ≠ [] → (SyncTree.ackAffectedTree w).get p = none) := by
  refine ⟨?_, ?_, ?_⟩
  · unfold SyncTree.ackUserWrite
    rw [hw]
    dsimp only
    rw [if_neg (by rw [hre]; simp)]
  · intro hsnap
    constructor
    · intro kn hkn
      unfold SyncTree.ackAffectedTree
      rw [hsnap]
      exact foldl_set_get_mem _ _ hnodup hkeys kn hkn
    · intro p hp
      unfold SyncTree.ackAffectedTree
      rw [hsnap]
      rw [foldl_set_get_notmem _ _ _ ?hne]
      · exact ITree.get_empty p
      case hne =>
        intro kn hkn
        have hv := hkeys kn hkn
        rw [parsePath_single _ hv.1 hv.2.1]
        exact hp kn hkn
  · intro n hsnap
    unfold SyncTree.ackAffectedTree
    rw [hsnap]
    constructor
    · rfl
    · intro p hp
      cases p with
      | nil => exact absurd rfl hp
      | cons k rest => rfl

/-- C1, counterexample: acknowledging a merge write stores the child's node,
not the boolean `true`, as the affected-tree entry of the child path. -/
theorem claim1_counterexample :
    WriteTree.getWrite sMergeSample.pendingWriteTree 1 = some wMergeSample ∧
    (WriteTree.removeWrite sMergeSample.pendingWriteTree 1).2 = true ∧
    SyncTree.ackUserWrite sMergeSample 1 false =
      some ⟨SyncTree.applyOperationToSyncPoints_
              { sMergeSample with pendingWriteTree := [] }
              (.ackUserWrite [['a']] (SyncTree.ackAffectedTree wMergeSample) false), [],
            { sMergeSample with pendingWriteTree := [] }⟩ ∧
    (SyncTree.ackAffectedTree wMergeSample).get [['x']] = some (.node (SNode.leaf 7)) ∧
    (SyncTree.ackAffectedTree wMergeSample).get [['x']] ≠ some (.b true) := by
  refine ⟨rfl, rfl, rfl, rfl, ?_⟩
  intro h
  rw [show (SyncTree.ackAffectedTree wMergeSample).get [['x']] =
      some (.node (SNode.leaf 7)) from rfl] at h
  injection h with h2
  cases h2

theorem addER_shadowed {s : SyncTree} {q : Query} (reg : Registration) {sp : SyncPoint}
    (hget : s.syncPointTree.get q.path = some sp)
    (hcomplete : sp.hasCompleteView = true)
    (hnew : sp.viewExistsForQuery q = false)
    (hfiltered : q.loadsAll = false)
    (hassert : s.queryToTagMap (SyncTree.makeQueryKey_ q) = none) :
    ∃ out, SyncTree.addEventRegistration s q reg = some out ∧
      out.calls = [] ∧
      out.st.queryToTagMap = (fun k =>
        if k = SyncTree.makeQueryKey_ q then some s.nextQueryTag else s.queryToTagMap k) ∧
      out.st.tagToQueryMap = (fun t =>
        if t = s.nextQueryTag then some (SyncTree.makeQueryKey_ q) else s.tagToQueryMap t) ∧
      out.st.nextQueryTag = s.nextQueryTag + 1 := by
  unfold SyncTree.addEventRegistration
  dsimp only
  rw [hget]
  dsimp only
  rw [hcomplete, Bool.or_true]
  unfold SyncTree.addEventRegistrationAfterLookup
  dsimp only
  rw [hnew, hfiltered, hassert]
  simp only [Bool.not_false, Bool.and_self, if_true, Option.isSome_none, Bool.false_eq_true,
    if_false, Bool.not_true, Bool.and_false]
  exact ⟨_, rfl, rfl, rfl, rfl, rfl⟩

theorem sampleS1_reachable : Reachable sampleS1 :=
  @Reachable.step initialSyncTree sampleS1 (Cmd.add qdA 0) Reachable.init rfl

theorem sampleS2_reachable : Reachable sampleS2 :=
  @Reachable.step sampleS1 sampleS2 (Cmd.add qfA 1) sampleS1_reachable rfl

/-- C5, counterexample: in the reachable state in which a default and then a
filtered query were registered at the same path, the sync point has a
complete view and a view for the filtered query, yet the filtered query has a
tag registered in both tag maps. -/
theorem claim5_counterexample :
    Reachable sampleS2 ∧
    (sampleS2.syncPointTree.get [['a']]).map SyncPoint.hasCompleteView = some true ∧
    (sampleS2.syncPointTree.get [['a']]).map
      (fun sp => sp.viewExistsForQuery qfA) = some true ∧
    qfA.loadsAll = false ∧
    sampleS2.queryToTagMap (SyncTree.makeQueryKey_ qfA) = some 1 ∧
    sampleS2.tagToQueryMap 1 = some (SyncTree.makeQueryKey_ qfA) :=
  ⟨sampleS2_reachable, rfl, rfl, rfl, rfl, rfl⟩

/-- C5, amended: when a filtered query is registered at a path whose sync
point already has a complete view, the tag stays registered in the maps; what
holds is that the filtered view's server subscription is suppressed: the call
makes no listen provider calls at all. -/
theorem claim5_amended (s : SyncTree) (q : Query) (reg : Registration) (sp : SyncPoint)
    (hget : s.syncPointTree.get q.path = some sp)
    (hcomplete : sp.hasCompleteView = true)
    (hnew : sp.viewExistsForQuery q = false)
    (hfiltered : q.loadsAll = false)
    (hassert : s.queryToTagMap (SyncTree.makeQueryKey_ q) = none) :
    ∃ out, SyncTree.addEventRegistration s q reg = some out ∧
      out.st.queryToTagMap (SyncTree.makeQueryKey_ q) ≠ none ∧
      out.calls = [] := by
  obtain ⟨out, hout, hcalls, hqt, _, _⟩ :=
    addER_shadowed reg hget hcomplete hnew hfiltered hassert
  refine ⟨out, hout, ?_, hcalls⟩
  rw [hqt]
  simp

/-- C10: registering a new filtered query at a path whose own sync point
already has a complete view assigns a fresh tag and inserts it into both tag
maps, but makes no `startListening` call, because the complete view at the
query's own path marks the location as shadowed and suppresses the listener
setup. -/
theorem claim10_tag_without_listen (s : SyncTree) (q : Query) (reg : Registration)
    (sp : SyncPoint)
    (hget : s.syncPointTree.get q.path = some sp)
    (hcomplete : sp.hasCompleteView = true)
    (hnew : sp.viewExistsForQuery q = false)
    (hfiltered : q.loadsAll = false)
    (hassert : s.queryToTagMap (SyncTree.makeQueryKey_ q) = none) :
    ∃ out, SyncTree.addEventRegistration s q reg = some out ∧
      out.st.queryToTagMap (SyncTree.makeQueryKey_ q) = some s.nextQueryTag ∧
      out.st.tagToQueryMap s.nextQueryTag = some (SyncTree.makeQueryKey_ q) ∧
      out.st.nextQueryTag = s.nextQueryTag + 1 ∧
      out.calls = [] := by
  obtain ⟨out, hout, hcalls, hqt, htq, hnext⟩ :=
    addER_shadowed reg hget hcomplete hnew hfiltered hassert
  refine ⟨out, hout, ?_, ?_, hnext, hcalls⟩
  · rw [hqt]; simp
  · rw [htq]; simp

theorem viewForQuery_addER {sp : SyncPoint} {q : Query} {reg : Registration}
    {wc : WriteTreeRef} {n : SNode} {b : Bool} (hnew : sp.viewExistsForQuery q = false) :
    (SyncPoint.addEventRegistration sp q reg wc n b).2.viewForQuery q =
      some ⟨q, [reg], if b then some n else none⟩ := by
  unfold SyncPoint.addEventRegistration
  rw [hnew]
  simp only [Bool.false_eq_true, if_false]
  unfold SyncPoint.viewForQuery
  rw [List.find?_append]
  have h1 : sp.views.find? (fun v => v.query.queryId == q.queryId) = none := by
    rw [List.find?_eq_none]
    intro v hv hbeq
    unfold SyncPoint.viewExistsForQuery at hnew
    rw [List.any_eq_false] at hnew
    exact hnew v hv hbeq
  rw [h1]
  simp

theorem getQueryViews_addER {sp : SyncPoint} {q : Query} {reg : Registration}
    {wc : WriteTreeRef} {n : SNode} {b : Bool} (hnew : sp.viewExistsForQuery q = false) :
    ∀ v ∈ sp.views, v.query.loadsAll = false →
      v ∈ (SyncPoint.addEventRegistration sp q reg wc n b).2.getQueryViews := by
  intro v hv hload
  unfold SyncPoint.addEventRegistration
  rw [hnew]
  simp only [Bool.false_eq_true, if_false]
  unfold SyncPoint.getQueryViews
  rw [List.mem_filter]
  exact ⟨List.mem_append_left _ hv, by simp [hload]⟩

theorem shadow_fold_unfold (t : ITree SyncPoint) :
    t.fold SyncTree.shadowFoldFn =
      SyncTree.shadowFoldFn [] t.value (ITree.foldChildren t.children [] SyncTree.shadowFoldFn) := by
  cases t
  rfl

theorem mem_shadowFoldFn_root {v : Option SyncPoint} {sp : SyncPoint} (hv : v = some sp)
    {cs : List (Str × List Query)} {q2 : Query}
    (hq : q2 ∈ sp.getQueryViews.map View.getQuery) :
    q2 ∈ SyncTree.shadowFoldFn [] v cs := by
  subst hv
  unfold SyncTree.shadowFoldFn
  simp only [List.isEmpty_nil, Bool.not_true, Bool.false_and, Bool.false_eq_true, if_false]
  exact List.mem_append_left _ hq

theorem filter_isStart_map_stop (f : Query → Query) (g : Query → Option Nat) (l : List Query) :
    ((l.map (fun x => ProviderCall.stop (f x) (g x))).filter ProviderCall.isStart) = [] := by
  induction l with
  | nil => rfl
  | cons a rest ih => simpa [ProviderCall.isStart] using ih

theorem setupListener_untagged {s : SyncTree} {q : Query} {view : View}
    (htag : s.queryToTagMap (SyncTree.makeQueryKey_ q) = none) :
    SyncTree.setupListener_ s q view = some ([],
      ProviderCall.start (SyncTree.queryForListening_ q) none ::
        ((s.syncPointTree.subtree q.path).fold SyncTree.shadowFoldFn).map (fun q2 =>
          ProviderCall.stop (SyncTree.queryForListening_ q2) (SyncTree.tagForQuery_ s q2))) := by
  unfold SyncTree.setupListener_ SyncTree.tagForQuery_
  rw [htag]

/-- C9: registering a new default query at a path not covered by any ancestor
complete view, whose sync point currently holds only filtered views, makes
exactly one `startListening` call — for the default query, untagged — and
issues a `stopListening` for each of the filtered queries' listens. -/
theorem claim9_default_shadows_filtered (s : SyncTree) (q : Query) (reg : Registration)
    (sp : SyncPoint)
    (hget : s.syncPointTree.get q.path = some sp)
    (hviews : ∀ v ∈ sp.views, v.query.loadsAll = false)
    (hnew : sp.viewExistsForQuery q = false)
    (hload : q.loadsAll = true)
    (hnoanc : (s.syncPointTree.ancestorsOnPath q.path).all
      (fun pv => !pv.2.hasCompleteView) = true)
    (hnotag : s.queryToTagMap (SyncTree.makeQueryKey_ q) = none) :
    ∃ out, SyncTree.addEventRegistration s q reg = some out ∧
      out.calls.filter ProviderCall.isStart =
        [ProviderCall.start (SyncTree.queryForListening_ q) none] ∧
      ∀ v ∈ sp.views,
        ProviderCall.stop (SyncTree.queryForListening_ v.query)
          (s.queryToTagMap (SyncTree.makeQueryKey_ v.query)) ∈ out.calls := by
  have hcompl : sp.hasCompleteView = false := by
    unfold SyncPoint.hasCompleteView
    rw [List.any_eq_false]
    intro v hv
    simp [hviews v hv]
  have hfound : (s.syncPointTree.ancestorsOnPath q.path).any
      (fun pv => pv.2.hasCompleteView) = false := by
    rw [List.any_eq_false]
    intro pv hpv
    have := List.all_eq_true.mp hnoanc pv hpv
    simpa using this
  unfold SyncTree.addEventRegistration
  dsimp only
  rw [hget]
  dsimp only
  rw [hfound, hcompl, Bool.or_false]
  unfold SyncTree.addEventRegistrationAfterLookup
  dsimp only
  rw [hnew, hload]
  simp only [Bool.not_false, Bool.not_true, Bool.and_false, Bool.false_eq_true, if_false,
    Bool.and_true, Bool.true_and, if_true]
  rw [viewForQuery_addER hnew]
  dsimp only
  set anc0 : Option SNode :=
    (List.foldl (fun acc pv => acc <|> pv.2.getCompleteServerCache pv.1) none
        (s.syncPointTree.ancestorsOnPath q.path) <|> sp.getCompleteServerCache []) with hanc0
  set r2 : SyncPoint :=
    (sp.addEventRegistration q reg (s.pendingWriteTree.childWrites q.path)
        (SyncTree.assembleServerCache s.syncPointTree q.path anc0).2
        (SyncTree.assembleServerCache s.syncPointTree q.path anc0).1).2 with hr2
  set s2x : SyncTree := { s with syncPointTree := s.syncPointTree.set q.path r2 } with hs2x
  have htag2 : s2x.queryToTagMap (SyncTree.makeQueryKey_ q) = none := hnotag
  rw [setupListener_untagged htag2]
  dsimp only
  refine ⟨_, rfl, ?_, ?_⟩
  · simp only [List.filter]
    rw [show ProviderCall.isStart
        (ProviderCall.start (SyncTree.queryForListening_ q) none) = true from rfl]
    rw [filter_isStart_map_stop]
  · intro v hv
    refine List.mem_cons_of_mem _ (List.mem_map.mpr ⟨v.query, ?_, rfl⟩)
    have hsub : s2x.syncPointTree.subtree q.path =
        ITree.mk (some r2) ((s.syncPointTree.subtree q.path).children) := by
      rw [hs2x]
      exact ITree.subtree_set_self _ _ _
    rw [hsub, shadow_fold_unfold]
    exact mem_shadowFoldFn_root rfl
      (List.mem_map.mpr ⟨v, getQueryViews_addER hnew v hv (hviews v hv), rfl⟩)

theorem sampleT1_reachable : Reachable sampleT1 :=
  @Reachable.step initialSyncTree sampleT1 (Cmd.add qfA 1) Reachable.init rfl

theorem claim1_witness :
    WriteTree.getWrite sMergeSample.pendingWriteTree 1 = some wMergeSample ∧
    (WriteTree.removeWrite sMergeSample.pendingWriteTree 1).2 = true ∧
    (∀ kn ∈ wMergeSample.children, validKey kn.1) ∧
    (wMergeSample.children.map Prod.fst).Nodup ∧
    (SyncTree.ackUserWrite sMergeSample 1 false =
      some ⟨SyncTree.applyOperationToSyncPoints_
              { sMergeSample with
                pendingWriteTree := (WriteTree.removeWrite sMergeSample.pendingWriteTree 1).1 }
              (.ackUserWrite wMergeSample.path (SyncTree.ackAffectedTree wMergeSample) false),
            [],
            { sMergeSample with
              pendingWriteTree := (WriteTree.removeWrite sMergeSample.pendingWriteTree 1).1 }⟩ ∧
     (wMergeSample.snap = none →
       (∀ kn ∈ wMergeSample.children,
         (SyncTree.ackAffectedTree wMergeSample).get [kn.1] = some (.node kn.2)) ∧
       (∀ p : FPath, (∀ kn ∈ wMergeSample.children, [kn.1] ≠ p) →
         (SyncTree.ackAffectedTree wMergeSample).get p = none)) ∧
     (∀ n, wMergeSample.snap = some n →
       (SyncTree.ackAffectedTree wMergeSample).get [] = some (.b true) ∧
       ∀ p : FPath, p ≠ [] → (SyncTree.ackAffectedTree wMergeSample).get p = none)) :=
  ⟨rfl, rfl, by decide, by decide,
   claim1_amended sMergeSample 1 false wMergeSample rfl rfl (by decide) (by decide)⟩

theorem claim2_witness :
    Reachable sampleS2 ∧
    ((∀ op : Operation, eventOrdered (SyncTree.applyOperationToSyncPoints_ sampleS2 op)) ∧
     (∀ p n w v, eventOrdered (SyncTree.applyUserOverwrite sampleS2 p n w v).events) ∧
     (∀ p cc w, eventOrdered (SyncTree.applyUserMerge sampleS2 p cc w).events) ∧
     (∀ w r out, SyncTree.ackUserWrite sampleS2 w r = some out → eventOrdered out.events) ∧
     (∀ p n, eventOrdered (SyncTree.applyServerOverwrite sampleS2 p n).events) ∧
     (∀ p cc, eventOrdered (SyncTree.applyServerMerge sampleS2 p cc).events) ∧
     (∀ p, eventOrdered (SyncTree.applyListenComplete sampleS2 p).events)) :=
  ⟨sampleS2_reachable, claim2_dispatch_events_depth_first sampleS2 sampleS2_reachable⟩

theorem claim3_witness :
    initialSyncTree.tagToQueryMap 42 = none ∧
    (SyncTree.applyTaggedQueryOverwrite initialSyncTree [['a']] (SNode.leaf 0) 42 =
      some ⟨[], [], initialSyncTree⟩ ∧
     SyncTree.applyTaggedQueryMerge initialSyncTree [['a']] [] 42 =
      some ⟨[], [], initialSyncTree⟩ ∧
     SyncTree.applyTaggedListenComplete initialSyncTree [['a']] 42 =
      some ⟨[], [], initialSyncTree⟩) :=
  ⟨rfl, claim3_unknown_tag_is_noop initialSyncTree [['a']] (SNode.leaf 0) [] 42 rfl⟩

theorem claim4_witness :
    Reachable sampleS2 ∧
    ((∀ t k, sampleS2.tagToQueryMap t = some k → sampleS2.queryToTagMap k = some t) ∧
     (∀ k t, sampleS2.queryToTagMap k = some t → sampleS2.tagToQueryMap t = some k) ∧
     (∀ t k, sampleS2.tagToQueryMap t = some k →
       ∃ q : Query, SyncTree.makeQueryKey_ q = k ∧ q.loadsAll = false)) :=
  ⟨sampleS2_reachable, claim4_tag_maps_inverse sampleS2 sampleS2_reachable⟩

theorem claim5_witness :
    sampleS1.syncPointTree.get [['a']] = some spS1 ∧
    spS1.hasCompleteView = true ∧
    spS1.viewExistsForQuery qfA = false ∧
    qfA.loadsAll = false ∧
    sampleS1.queryToTagMap (SyncTree.makeQueryKey_ qfA) = none ∧
    (∃ out, SyncTree.addEventRegistration sampleS1 qfA 1 = some out ∧
      out.st.queryToTagMap (SyncTree.makeQueryKey_ qfA) ≠ none ∧
      out.calls = []) :=
  ⟨rfl, rfl, rfl, rfl, rfl, claim5_amended sampleS1 qfA 1 spS1 rfl rfl rfl rfl rfl⟩

theorem claim7_witness :
    validPath qfA.path ∧ qfA.queryId ≠ [] ∧
    SyncTree.parseQueryKey_ (SyncTree.makeQueryKey_ qfA) = some (qfA.path, qfA.queryId) :=
  ⟨by decide, by decide, claim7_query_key_roundtrip qfA (by decide) (by decide)⟩

theorem claim8_witness :
    Reachable sampleS2 ∧
    (∀ p sp, sampleS2.syncPointTree.get p = some sp → sp.views ≠ []) :=
  ⟨sampleS2_reachable, claim8_no_empty_sync_points sampleS2 sampleS2_reachable⟩

theorem claim9_witness :
    sampleT1.syncPointTree.get [['a']] = some spT1 ∧
    (∀ v ∈ spT1.views, v.query.loadsAll = false) ∧
    spT1.viewExistsForQuery qdA = false ∧
    qdA.loadsAll = true ∧
    (sampleT1.syncPointTree.ancestorsOnPath [['a']]).all
      (fun pv => !pv.2.hasCompleteView) = true ∧
    sampleT1.queryToTagMap (SyncTree.makeQueryKey_ qdA) = none ∧
    (∃ out, SyncTree.addEventRegistration sampleT1 qdA 0 = some out ∧
      out.calls.filter ProviderCall.isStart =
        [ProviderCall.start (SyncTree.queryForListening_ qdA) none] ∧
      ∀ v ∈ spT1.views,
        ProviderCall.stop (SyncTree.queryForListening_ v.query)
          (sampleT1.queryToTagMap (SyncTree.makeQueryKey_ v.query)) ∈ out.calls) :=
  ⟨rfl, by decide, rfl, rfl, rfl, rfl,
   claim9_default_shadows_filtered sampleT1 qdA 0 spT1 rfl (by decide) rfl rfl rfl rfl⟩

theorem claim10_witness :
    sampleS1.syncPointTree.get [['a']] = some spS1 ∧
    spS1.hasCompleteView = true ∧
    spS1.viewExistsForQuery qfA = false ∧
    qfA.loadsAll = false ∧
    sampleS1.queryToTagMap (SyncTree.makeQueryKey_ qfA) = none ∧
    (∃ out, SyncTree.addEventRegistration sampleS1 qfA 1 = some out ∧
      out.st.queryToTagMap (SyncTree.makeQueryKey_ qfA) = some sampleS1.nextQueryTag ∧
      out.st.tagToQueryMap sampleS1.nextQueryTag = some (SyncTree.makeQueryKey_ qfA) ∧
      out.st.nextQueryTag = sampleS1.nextQueryTag + 1 ∧
      out.calls = []) :=
  ⟨rfl, rfl, rfl, rfl, rfl, claim10_tag_without_listen sampleS1 qfA 1 spS1 rfl rfl rfl rfl rfl⟩
